import Mathlib

/-!
Verification development for the gost-formatter-api repository.

Texts are modelled as lists of Unicode code points (`Str`).  Every Python
`re.sub`/`re.search` call that the claims depend on is embedded as an
explicit left-to-right scanner with the same leftmost, non-overlapping,
greedy-quantifier semantics as CPython's `re` module.  IEEE-754 float
arithmetic on the 0.1-granularity confidence values of `vak_parser.py` is
modelled exactly over `ℚ`.
-/

abbrev Str := List Char

/-- Decimal digit, the `\d` class of the source regexes. -/
def isDigitC (c : Char) : Bool := 48 ≤ c.toNat && c.toNat ≤ 57

/-- ASCII `A`-`Z`. -/
def isLatUpper (c : Char) : Bool := 65 ≤ c.toNat && c.toNat ≤ 90

/-- ASCII `a`-`z`. -/
def isLatLower (c : Char) : Bool := 97 ≤ c.toNat && c.toNat ≤ 122

/-- Cyrillic `А`-`Я` (U+0410..U+042F). -/
def isCyrUpperBase (c : Char) : Bool := 0x410 ≤ c.toNat && c.toNat ≤ 0x42F

/-- Cyrillic `а`-`я` (U+0430..U+044F). -/
def isCyrLowerBase (c : Char) : Bool := 0x430 ≤ c.toNat && c.toNat ≤ 0x44F

/-- The regex class `[а-яё]`. -/
def isCyrLowerYo (c : Char) : Bool := isCyrLowerBase c || c = 'ё'

/-- The regex class `[А-ЯЁ]`. -/
def isCyrUpperYo (c : Char) : Bool := isCyrUpperBase c || c = 'Ё'

/-- The regex class `[А-ЯЁа-яёA-Za-z]` used by the punctuation rules. -/
def isRuleLetter (c : Char) : Bool :=
  isCyrUpperYo c || isCyrLowerYo c || isLatUpper c || isLatLower c

/-- The regex class `[А-ЯЁA-Z]`. -/
def isUpperAZ (c : Char) : Bool := isCyrUpperYo c || isLatUpper c

/-- The regex class `[а-яёa-z]`. -/
def isLowerAZ (c : Char) : Bool := isCyrLowerYo c || isLatLower c

/-- Python's `\s` class for `str` patterns (Unicode whitespace). -/
def pyIsSpace (c : Char) : Bool :=
  let n := c.toNat
  (9 ≤ n && n ≤ 13) || n = 32 || (28 ≤ n && n ≤ 31) || n = 0x85 || n = 0xA0 ||
    n = 0x1680 || (0x2000 ≤ n && n ≤ 0x200A) || n = 0x2028 || n = 0x2029 ||
    n = 0x202F || n = 0x205F || n = 0x3000

/-- Python's `\w` class, restricted to the scripts that occur in this
repository: ASCII alphanumerics, underscore, Latin-1 letters and the
Cyrillic block U+0400..U+04FF. -/
def pyIsWord (c : Char) : Bool :=
  let n := c.toNat
  isDigitC c || isLatUpper c || isLatLower c || c = '_' ||
    (0x400 ≤ n && n ≤ 0x4FF) ||
    (0xC0 ≤ n && n ≤ 0xFF && n ≠ 0xD7 && n ≠ 0xF7)

/-- Python's `str.lower` on the alphabets used here (ASCII and Cyrillic,
including `Ё` → `ё` and the U+0400..U+040F row). -/
def pyLower (c : Char) : Char :=
  let n := c.toNat
  if 65 ≤ n && n ≤ 90 then Char.ofNat (n + 32)
  else if 0x410 ≤ n && n ≤ 0x42F then Char.ofNat (n + 32)
  else if 0x400 ≤ n && n ≤ 0x40F then Char.ofNat (n + 80)
  else c

/-- Python's substring test `pat in s`. -/
def containsSub (pat : Str) : Str → Bool
  | [] => pat.isEmpty
  | c :: t => pat.isPrefixOf (c :: t) || containsSub pat t

/-- Python's `str.replace(pat, rep)` scan with explicit fuel; every
step either replaces a nonempty occurrence (consuming `pat.length ≥ 1`
characters) or emits one character, so fuel equal to the text's length
always suffices — the fuel-exhausted branch is unreachable from
`replaceAll`. -/
def replaceAllGo (pat rep : Str) : Nat → Str → Str
  | _, [] => []
  | 0, s => s
  | fuel + 1, c :: t =>
    if pat.isPrefixOf (c :: t) ∧ pat ≠ [] then
      rep ++ replaceAllGo pat rep fuel ((c :: t).drop pat.length)
    else
      c :: replaceAllGo pat rep fuel t

/-- Python's `str.replace(pat, rep)`: replace every non-overlapping
occurrence of `pat`, scanning left to right. -/
def replaceAll (pat rep s : Str) : Str := replaceAllGo pat rep s.length s

/-- Length of `List.dropWhile` never exceeds the input's length. -/
theorem lenDropWhileLe (p : Char → Bool) : ∀ s : Str, (s.dropWhile p).length ≤ s.length := by
  intro s
  induction s with
  | nil => simp [List.dropWhile]
  | cons c t ih => by_cases h : p c <;> simp [List.dropWhile, h] <;> omega

/-- Python's `str.strip()` (whitespace strip at both ends). -/
def pyStrip (s : Str) : Str :=
  ((s.dropWhile pyIsSpace).reverse.dropWhile pyIsSpace).reverse

/-- `str.rstrip(".")`: drop trailing periods. -/
def rstripDot (s : Str) : Str :=
  (s.reverse.dropWhile (· = '.')).reverse

/-- `re.search` as existence: does the one-position matcher `p` succeed
at some position (the scan of every suffix, end included)? -/
def searchB (p : Str → Bool) : Str → Bool
  | [] => p []
  | c :: t => p (c :: t) || searchB p t

/-- Like `searchB` but the matcher also sees the previous character,
which is what `\b` word boundaries need. -/
def searchPrev (p : Option Char → Str → Bool) : Option Char → Str → Bool
  | prev, [] => p prev []
  | prev, c :: t => p prev (c :: t) || searchPrev p (some c) t

/-- Word-boundary test before a position: start of text or a non-word
previous character. -/
def prevBoundary (prev : Option Char) : Bool :=
  match prev with
  | none => true
  | some c => !pyIsWord c

/-- Word-boundary test after a match: end of text or a non-word next
character. -/
def nextBoundary : Str → Bool
  | [] => true
  | c :: _ => !pyIsWord c

/-- `re.search` returning the first (leftmost) match value of a
one-position matcher. -/
def searchFirst {α : Type} (m : Str → Option α) : Str → Option α
  | [] => m []
  | c :: t =>
    match m (c :: t) with
    | some v => some v
    | none => searchFirst m t

/-- Like `searchFirst` but the matcher also sees the previous character
(for `\\b` word boundaries). -/
def searchPrevFirst {α : Type} (m : Option Char → Str → Option α) :
    Option Char → Str → Option α
  | prev, [] => m prev []
  | prev, c :: t =>
    match m prev (c :: t) with
    | some v => some v
    | none => searchPrevFirst m (some c) t

/-- Strip trailing whitespace. -/
def stripWsEnd (s : Str) : Str := (s.reverse.dropWhile pyIsSpace).reverse

namespace Cleanup

/-! Embedding of `clean_text` from `src/cleanup_dataset.py`.  The function
is a fixed chain of `str.replace` and `re.sub` calls; each `re.sub` is
embedded as its own scanner, applied in the source's order. -/

/-- Rule 1a: `re.sub(r'журн\.\.', 'журн.')` (a literal pattern, so the
substitution coincides with `str.replace`). -/
def sub1a (s : Str) : Str :=
  replaceAll "журн..".data "журн.".data s

/-- Rule 1b: `re.sub(r'([а-яё])\.\.([^.])', r'\1.\2')`. -/
def sub1b : Str → Str
  | a :: b :: c :: d :: t =>
    if isCyrLowerYo a ∧ b = '.' ∧ c = '.' ∧ d ≠ '.' then a :: '.' :: d :: sub1b t
    else a :: sub1b (b :: c :: d :: t)
  | c :: t => c :: sub1b t
  | [] => []

/-- Rule 2: `re.sub(r'  +', ' ')` — each maximal run of two or more
spaces becomes a single space.  (Implemented by deleting one space of
each adjacent pair and rescanning, which yields exactly the
maximal-run-to-one-space replacement of the source.) -/
def sub2 : Str → Str
  | a :: b :: t =>
    if a = ' ' ∧ b = ' ' then sub2 (b :: t)
    else a :: sub2 (b :: t)
  | c :: t => c :: sub2 t
  | [] => []

/-- Rule 3: `re.sub(r'\. –([А-ЯЁа-яёA-Za-z])', r'. – \1')`. -/
def sub3 : Str → Str
  | a :: b :: c :: d :: t =>
    if a = '.' ∧ b = ' ' ∧ c = '–' ∧ isRuleLetter d then
      '.' :: ' ' :: '–' :: ' ' :: d :: sub3 t
    else a :: sub3 (b :: c :: d :: t)
  | c :: t => c :: sub3 t
  | [] => []

/-- Rule 4: `re.sub(r':([А-ЯЁа-яёA-Za-z])', r': \1')`. -/
def sub4 : Str → Str
  | a :: b :: t =>
    if a = ':' ∧ isRuleLetter b then ':' :: ' ' :: b :: sub4 t
    else a :: sub4 (b :: t)
  | c :: t => c :: sub4 t
  | [] => []

/-- Rule 5a: `re.sub(r'(\d) – (\d)', r'\1–\2')`. -/
def sub5a : Str → Str
  | a :: b :: c :: d :: e :: t =>
    if isDigitC a ∧ b = ' ' ∧ c = '–' ∧ d = ' ' ∧ isDigitC e then
      a :: '–' :: e :: sub5a t
    else a :: sub5a (b :: c :: d :: e :: t)
  | c :: t => c :: sub5a t
  | [] => []

/-- Rule 5b: `re.sub(r'(\d)– (\d)', r'\1–\2')`. -/
def sub5b : Str → Str
  | a :: b :: c :: d :: t =>
    if isDigitC a ∧ b = '–' ∧ c = ' ' ∧ isDigitC d then
      a :: '–' :: d :: sub5b t
    else a :: sub5b (b :: c :: d :: t)
  | c :: t => c :: sub5b t
  | [] => []

/-- Rule 5c: `re.sub(r'(\d) –(\d)', r'\1–\2')`. -/
def sub5c : Str → Str
  | a :: b :: c :: d :: t =>
    if isDigitC a ∧ b = ' ' ∧ c = '–' ∧ isDigitC d then
      a :: '–' :: d :: sub5c t
    else a :: sub5c (b :: c :: d :: t)
  | c :: t => c :: sub5c t
  | [] => []

/-- Consume one optional leading space — the ` ?` pieces of rule 6. -/
def dropOneSpace : Str → Str
  | ' ' :: t => t
  | s => s

theorem lenDropOneSpaceLe (s : Str) : (dropOneSpace s).length ≤ s.length := by
  match s with
  | [] => simp [dropOneSpace]
  | c :: t =>
    by_cases h : c = ' '
    · subst h; simp [dropOneSpace]
    · have : dropOneSpace (c :: t) = c :: t := by
        unfold dropOneSpace
        split
        · simp_all
        · rfl
      simp [this]

/-- Match attempt for rule 6's tail `(\d+) ?– ?(\d+)` (the part after
`С. `): returns the two digit groups and the remainder after the match.
The greedy `\d+` groups need no backtracking because the pattern
characters that follow them are never digits. -/
def sub6tail (s : Str) : Option (Str × Str × Str) :=
  match s.takeWhile isDigitC with
  | [] => none
  | d1h :: d1t =>
    match dropOneSpace (s.dropWhile isDigitC) with
    | '–' :: r3 =>
      match (dropOneSpace r3).takeWhile isDigitC with
      | [] => none
      | d2h :: d2t =>
        some (d1h :: d1t, d2h :: d2t, (dropOneSpace r3).dropWhile isDigitC)
    | _ => none

theorem sub6tailLen {s d1 d2 r : Str} (h : sub6tail s = some (d1, d2, r)) :
    r.length ≤ s.length := by
  unfold sub6tail at h
  split at h
  · exact absurd h (by simp)
  · split at h
    next r3 heq =>
      split at h
      · exact absurd h (by simp)
      · simp only [Option.some.injEq, Prod.mk.injEq] at h
        rcases h with ⟨-, -, hr⟩
        subst hr
        have h₁ := lenDropWhileLe isDigitC (dropOneSpace r3)
        have h₂ := lenDropOneSpaceLe r3
        have h₃ : r3.length < (dropOneSpace (s.dropWhile isDigitC)).length := by
          rw [heq]; simp
        have h₄ := lenDropOneSpaceLe (s.dropWhile isDigitC)
        have h₅ := lenDropWhileLe isDigitC s
        omega
    next => exact absurd h (by simp)

/-- Rule 6 scan with fuel (a match consumes at least four characters,
an advance consumes one, so length fuel suffices). -/
def sub6go : Nat → Str → Str
  | _, [] => []
  | 0, s => s
  | fuel + 1, a :: b :: c :: t =>
    if a = 'С' ∧ b = '.' ∧ c = ' ' then
      match sub6tail t with
      | some (d1, d2, rest) => 'С' :: '.' :: ' ' :: (d1 ++ '–' :: d2) ++ sub6go fuel rest
      | none => a :: sub6go fuel (b :: c :: t)
    else a :: sub6go fuel (b :: c :: t)
  | fuel + 1, c :: t => c :: sub6go fuel t

/-- Rule 6: `re.sub(r'С\. (\d+) ?– ?(\d+)', r'С. \1–\2')`.  The optional
single spaces around the dash are dropped in the replacement. -/
def sub6 (s : Str) : Str := sub6go s.length s

/-- Rule 7: `re.sub(r'(\w\. \w\.)([А-ЯЁA-Z])', r'\1 \2')`. -/
def sub7 : Str → Str
  | a :: b :: c :: d :: e :: f :: t =>
    if pyIsWord a ∧ b = '.' ∧ c = ' ' ∧ pyIsWord d ∧ e = '.' ∧ isUpperAZ f then
      a :: '.' :: ' ' :: d :: '.' :: ' ' :: f :: sub7 t
    else a :: sub7 (b :: c :: d :: e :: f :: t)
  | c :: t => c :: sub7 t
  | [] => []

/-- Rule 8: `re.sub(r'№([А-ЯЁа-яёA-Za-z0-9])', r'№ \1')`. -/
def sub8 : Str → Str
  | a :: b :: t =>
    if a = '№' ∧ (isRuleLetter b ∨ isDigitC b) then '№' :: ' ' :: b :: sub8 t
    else a :: sub8 (b :: t)
  | c :: t => c :: sub8 t
  | [] => []

/-- Rule 9a: `re.sub(r'Т\.(\d)', r'Т. \1')`. -/
def sub9a : Str → Str
  | a :: b :: c :: t =>
    if a = 'Т' ∧ b = '.' ∧ isDigitC c then 'Т' :: '.' :: ' ' :: c :: sub9a t
    else a :: sub9a (b :: c :: t)
  | c :: t => c :: sub9a t
  | [] => []

/-- Rule 9b: `re.sub(r'Вып\.(\d)', r'Вып. \1')`. -/
def sub9b : Str → Str
  | a :: b :: c :: d :: e :: t =>
    if a = 'В' ∧ b = 'ы' ∧ c = 'п' ∧ d = '.' ∧ isDigitC e then
      'В' :: 'ы' :: 'п' :: '.' :: ' ' :: e :: sub9b t
    else a :: sub9b (b :: c :: d :: e :: t)
  | c :: t => c :: sub9b t
  | [] => []

/-- Rule 9c: `re.sub(r'кн\.(\d)', r'кн. \1')`. -/
def sub9c : Str → Str
  | a :: b :: c :: d :: t =>
    if a = 'к' ∧ b = 'н' ∧ c = '.' ∧ isDigitC d then
      'к' :: 'н' :: '.' :: ' ' :: d :: sub9c t
    else a :: sub9c (b :: c :: d :: t)
  | c :: t => c :: sub9c t
  | [] => []

/-- Rule 10a: `re.sub(r' \.', '.')`. -/
def sub10a : Str → Str
  | a :: b :: t =>
    if a = ' ' ∧ b = '.' then '.' :: sub10a t
    else a :: sub10a (b :: t)
  | c :: t => c :: sub10a t
  | [] => []

/-- Rule 10b: `re.sub(r' ,', ',')`. -/
def sub10b : Str → Str
  | a :: b :: t =>
    if a = ' ' ∧ b = ',' then ',' :: sub10b t
    else a :: sub10b (b :: t)
  | c :: t => c :: sub10b t
  | [] => []

/-- Rule 11: `re.sub(r'\. –([^\s\d–])', r'. – \1')`. -/
def sub11 : Str → Str
  | a :: b :: c :: d :: t =>
    if a = '.' ∧ b = ' ' ∧ c = '–' ∧ ¬pyIsSpace d ∧ ¬isDigitC d ∧ d ≠ '–' then
      '.' :: ' ' :: '–' :: ' ' :: d :: sub11 t
    else a :: sub11 (b :: c :: d :: t)
  | c :: t => c :: sub11 t
  | [] => []

/-- The ellipsis sentinel of `clean_text`. -/
def ellipsisToken : Str := "<<<ELLIPSIS>>>".data

/-- `clean_text` from `src/cleanup_dataset.py`: protect the dissertation
ellipsis, apply the eleven punctuation rules in order, restore the
ellipsis. -/
def clean_text (s : Str) : Str :=
  replaceAll ellipsisToken "...".data
    (sub11 (sub10b (sub10a (sub9c (sub9b (sub9a (sub8 (sub7 (sub6 (sub5c (sub5b (sub5a
      (sub4 (sub3 (sub2 (sub1b (sub1a
        (replaceAll ". ... ".data (". ".data ++ ellipsisToken ++ " ".data) s))))))))))))))))))

/-- String-level wrapper of `clean_text`. -/
def cleanTextS (s : String) : String := ⟨clean_text s.data⟩

end Cleanup

namespace Agent

/-! Embedding of `GOSTFormatterAgent._detect_document_type` from
`src/gost_formatter_agent.py`: an ordered chain of substring tests and
`re.search` calls.  Each `re.search` is embedded as a position-by-position
scan (`searchB` / `searchPrev`) with a matcher implementing the pattern
at one position. -/

/-- `str.lower()` of a text. -/
def lowerStr (s : Str) : Str := s.map pyLower

/-- Two uppercase Latin letters, the `[A-Z]{2}` tail of the patent
pattern. -/
def twoLatUpper : Str → Bool
  | a :: b :: _ => isLatUpper a && isLatUpper b
  | _ => false

/-- One position of `пат\.\s*[A-Z]{2}|а\.\s*с\.\s*[A-Z]{2}|полез\.\s*модель`
(searched on the raw text). -/
def patentAt (s : Str) : Bool :=
  ("пат.".data.isPrefixOf s && twoLatUpper ((s.drop 4).dropWhile pyIsSpace)) ||
  ("а.".data.isPrefixOf s &&
    (let r := (s.drop 2).dropWhile pyIsSpace
     "с.".data.isPrefixOf r && twoLatUpper ((r.drop 2).dropWhile pyIsSpace))) ||
  ("полез.".data.isPrefixOf s && "модель".data.isPrefixOf ((s.drop 6).dropWhile pyIsSpace))

/-- One position of `дис\.\s*\.{3}|дыс\.\s*\.{3}` (searched on the
lowercased text). -/
def degreeAt (s : Str) : Bool :=
  ("дис.".data.isPrefixOf s || "дыс.".data.isPrefixOf s) &&
    "...".data.isPrefixOf ((s.drop 4).dropWhile pyIsSpace)

/-- One position of `гост\s*\d|стб\s*\d|ткп\s*\d|тр\s*тс\s*\d` (on the
lowercased text). -/
def standardAt (s : Str) : Bool :=
  (["гост".data, "стб".data, "ткп".data].any fun w =>
    w.isPrefixOf s &&
      match ((s.drop w.length).dropWhile pyIsSpace) with
      | c :: _ => isDigitC c
      | [] => false) ||
  ("тр".data.isPrefixOf s &&
    (let r := (s.drop 2).dropWhile pyIsSpace
     "тс".data.isPrefixOf r &&
       match ((r.drop 2).dropWhile pyIsSpace) with
       | c :: _ => isDigitC c
       | [] => false))

/-- One position of `\bкодекс\b` (on the lowercased text). -/
def kodeksAt (prev : Option Char) (s : Str) : Bool :=
  prevBoundary prev && "кодекс".data.isPrefixOf s && nextBoundary (s.drop 6)

/-- One position of
`\bзакон\b|\bуказ\b|\bпостановлени|\bдекрет\b|приказ\s+\w+\.`
(on the lowercased text). -/
def lawAt (prev : Option Char) (s : Str) : Bool :=
  (prevBoundary prev && "закон".data.isPrefixOf s && nextBoundary (s.drop 5)) ||
  (prevBoundary prev && "указ".data.isPrefixOf s && nextBoundary (s.drop 4)) ||
  (prevBoundary prev && "постановлени".data.isPrefixOf s) ||
  (prevBoundary prev && "декрет".data.isPrefixOf s && nextBoundary (s.drop 6)) ||
  ("приказ".data.isPrefixOf s &&
    (let r := s.drop 6
     let w := r.takeWhile pyIsSpace
     let r2 := r.dropWhile pyIsSpace
     let ww := r2.takeWhile pyIsWord
     let r3 := r2.dropWhile pyIsWord
     !w.isEmpty && !ww.isEmpty &&
       match r3 with
       | '.' :: _ => true
       | _ => false))

/-- Does `w` occur in `s` before any newline?  This is `.*w` continuation
after an anchor word (`.` does not match a newline). -/
def foundBeforeNl (w : Str) : Str → Bool
  | [] => w.isEmpty
  | c :: t => w.isPrefixOf (c :: t) || (c ≠ '\n' && foundBeforeNl w t)

/-- One position of `матер.*конф|тезис.*докл|чтения\s*:` (on the
lowercased text). -/
def confAt (s : Str) : Bool :=
  ("матер".data.isPrefixOf s && foundBeforeNl "конф".data (s.drop 5)) ||
  ("тезис".data.isPrefixOf s && foundBeforeNl "докл".data (s.drop 5)) ||
  ("чтения".data.isPrefixOf s &&
    match ((s.drop 6).dropWhile pyIsSpace) with
    | ':' :: _ => true
    | _ => false)

/-- One position of `сб\.\s*(науч\.|ст\.|тр\.)` (on the lowercased
text). -/
def sbAt (s : Str) : Bool :=
  "сб.".data.isPrefixOf s &&
    (let r := (s.drop 3).dropWhile pyIsSpace
     "науч.".data.isPrefixOf r || "ст.".data.isPrefixOf r || "тр.".data.isPrefixOf r)

/-- The text after the first `' // '` separator, up to the next
`' // '` or the end — `text.split(' // ')[1]` when a separator exists. -/
def afterSlashes : Str → Str
  | [] => []
  | c :: t =>
    if " // ".data.isPrefixOf (c :: t) then takeSeg ((c :: t).drop 4)
    else afterSlashes t
where
  takeSeg : Str → Str
    | [] => []
    | c :: t => if " // ".data.isPrefixOf (c :: t) then [] else c :: takeSeg t

/-- One position of `[ТT]\.\s*\d|№\s*\d` (case-sensitive, on the text
after `' // '`). -/
def volIssueAt (s : Str) : Bool :=
  (match s with
   | c :: '.' :: r =>
     (c = 'Т' || c = 'T') &&
       (match r.dropWhile pyIsSpace with
        | d :: _ => isDigitC d
        | [] => false)
   | _ => false) ||
  (match s with
   | '№' :: r =>
     (match r.dropWhile pyIsSpace with
      | d :: _ => isDigitC d
      | [] => false)
   | _ => false)

/-- One position of `\.by\b|газет` (on the lowercased after-text). -/
def newspaperAt (prev : Option Char) (s : Str) : Bool :=
  (".by".data.isPrefixOf s && nextBoundary (s.drop 3)) ||
  "газет".data.isPrefixOf s

/-- One author match of the classifier pattern
`([А-ЯЁA-Z][а-яёa-z]+),\\s+[А-ЯЁA-Z]\\.` at this position: an uppercase
letter, a nonempty greedy lowercase run, a comma, a nonempty whitespace
run, an uppercase letter and a period.  Returns the surname group
(uppercase letter plus the lowercase run) and the remainder after the
whole match. -/
def authorAt : Str → Option (Str × Str)
  | [] => none
  | c :: t =>
    if isUpperAZ c ∧ t.takeWhile isLowerAZ ≠ [] ∧
        (t.dropWhile isLowerAZ).headD ' ' = ',' ∧
        ((t.dropWhile isLowerAZ).tail.dropWhile pyIsSpace).length <
          (t.dropWhile isLowerAZ).tail.length ∧
        isUpperAZ (((t.dropWhile isLowerAZ).tail.dropWhile pyIsSpace).headD ' ') ∧
        ((t.dropWhile isLowerAZ).tail.dropWhile pyIsSpace).tail.headD ' ' = '.'
    then some (c :: t.takeWhile isLowerAZ,
               ((t.dropWhile isLowerAZ).tail.dropWhile pyIsSpace).tail.tail)
    else none

theorem authorAtLen {s fam r : Str} (h : authorAt s = some (fam, r)) :
    r.length < s.length := by
  cases s with
  | nil => simp [authorAt] at h
  | cons c t =>
    simp only [authorAt] at h
    split_ifs at h with hc
    simp only [Option.some.injEq, Prod.mk.injEq] at h
    rcases h with ⟨-, hr⟩
    subst hr
    rcases hc with ⟨-, -, -, h4, -, -⟩
    have h₁ := lenDropWhileLe isLowerAZ t
    simp only [List.length_tail] at h4 ⊢
    simp only [List.length_cons]
    omega

/-- All author surname matches of the classifier's `re.findall` (scanning
left to right, non-overlapping). -/
def authorSurnamesGo : Nat → Str → List Str
  | _, [] => []
  | 0, _ => []
  | fuel + 1, c :: t =>
    match authorAt (c :: t) with
    | some (fam, rest) => fam :: authorSurnamesGo fuel rest
    | none => authorSurnamesGo fuel t

/-- All author surname matches of the classifier's `re.findall` (scanning
left to right, non-overlapping); `authorAtLen` shows each match consumes
at least one character, so length fuel suffices. -/
def authorSurnames (s : Str) : List Str := authorSurnamesGo s.length s

/-- Number of distinct surnames — `len(set(re.findall(...)))`. -/
def distinctAuthorCount (s : Str) : Nat := (authorSurnames s).dedup.length

/-- `GOSTFormatterAgent._detect_document_type`: the ordered
classification chain. -/
def detect_document_type (text : Str) : String :=
  let lower := lowerStr text
  if containsSub "[звукозапись]".data lower || containsSub "[видеозапись]".data lower then
    "multimedia"
  else if containsSub "[изоматериал]".data lower || containsSub "плакат]".data lower then
    "visual_material"
  else if containsSub "[ноты]".data lower then "music_score"
  else if containsSub "[карт".data lower then "map"
  else if searchB patentAt text then "patent"
  else if searchB degreeAt lower then "dissertation"
  else if containsSub "автореф".data lower then "abstract"
  else if containsSub "препринт".data lower then "preprint"
  else if searchB standardAt lower then "standard"
  else if containsSub "конституц".data lower || searchPrev kodeksAt none lower then "law"
  else if searchPrev lawAt none lower then "law"
  else if searchB confAt lower then "conference"
  else if searchB sbAt lower then "collection_article"
  else if containsSub " // ".data text && searchB volIssueAt (afterSlashes text) then
    "journal_article"
  else if containsSub " // ".data text &&
      searchPrev newspaperAt none (lowerStr (afterSlashes text)) then
    "newspaper_article"
  else if containsSub "[и др.]".data text || containsSub "[et al.]".data text then
    "book_4plus_authors"
  else if 4 ≤ distinctAuthorCount text then "book_4plus_authors"
  else if 1 ≤ distinctAuthorCount text then "book_1_3_authors"
  else if containsSub "[электронный ресурс]".data lower then "electronic_resource"
  else "unknown"

/-- String-level wrapper of the classifier. -/
def detectS (s : String) : String := detect_document_type s.data

/-- No category marker fires: every condition of the classification
chain before the author-count fallback is false, and the
electronic-resource marker after it is absent as well.  Each conjunct
mirrors one guard of `detect_document_type` verbatim. -/
def noMarkers (text : Str) : Bool :=
  let lower := lowerStr text
  !(containsSub "[звукозапись]".data lower) && !(containsSub "[видеозапись]".data lower) &&
  !(containsSub "[изоматериал]".data lower) && !(containsSub "плакат]".data lower) &&
  !(containsSub "[ноты]".data lower) &&
  !(containsSub "[карт".data lower) &&
  !(searchB patentAt text) &&
  !(searchB degreeAt lower) &&
  !(containsSub "автореф".data lower) &&
  !(containsSub "препринт".data lower) &&
  !(searchB standardAt lower) &&
  !(containsSub "конституц".data lower) && !(searchPrev kodeksAt none lower) &&
  !(searchPrev lawAt none lower) &&
  !(searchB confAt lower) &&
  !(searchB sbAt lower) &&
  !(containsSub " // ".data text) &&
  !(containsSub "[и др.]".data text) && !(containsSub "[et al.]".data text) &&
  !(containsSub "[электронный ресурс]".data lower)

end Agent

/-- Python's binary `max` on floats, as an executable operation on
`ℚ` (`Max ℚ` from the order structure does not reduce in the kernel). -/
def ratMax (a b : ℚ) : ℚ := if a ≤ b then b else a

/-- A count of tenths as a rational: `0.1·n`.  The source's confidence
arithmetic (`1.0 − 0.2 − 0.3 − 0.1`, floored at `0.3`) is exact on
tenths, so it is modelled as integer tenths divided by ten (the
rational subtraction of this toolchain is `@[irreducible]` and would
not evaluate under `decide`). -/
def tenths (n : Int) : ℚ := mkRat n 10

namespace Vak

/-! Embedding of the extraction functions of `VAKParser` from
`src/vak_parser.py`. -/

/-- A family-name match `[А-ЯЁA-Z][а-яёa-z]+` at this position: returns
the group and the remainder. -/
def famAt : Str → Option (Str × Str)
  | c :: t =>
    if isUpperAZ c ∧ t.takeWhile isLowerAZ ≠ [] then
      some (c :: t.takeWhile isLowerAZ, t.dropWhile isLowerAZ)
    else none
  | [] => none

theorem famAtLen {s f r : Str} (h : famAt s = some (f, r)) : r.length < s.length := by
  cases s with
  | nil => simp [famAt] at h
  | cons c t =>
    simp only [famAt] at h
    split_ifs at h
    simp only [Option.some.injEq, Prod.mk.injEq] at h
    rcases h with ⟨-, hr⟩
    subst hr
    have := lenDropWhileLe isLowerAZ t
    simp
    omega

/-- The optional tail `\s*[А-ЯЁA-Z]?\.?` of the first author pattern's
initials group: always succeeds; returns the consumed characters and the
remainder.  All three quantifiers are greedy and nothing follows them in
the group, so no backtracking arises. -/
def optTail (r : Str) : Str × Str :=
  if isUpperAZ ((r.dropWhile pyIsSpace).headD ' ') then
    if (r.dropWhile pyIsSpace).tail.headD ' ' = '.' then
      (r.takeWhile pyIsSpace ++ (r.dropWhile pyIsSpace).take 2,
       (r.dropWhile pyIsSpace).tail.tail)
    else
      (r.takeWhile pyIsSpace ++ (r.dropWhile pyIsSpace).take 1,
       (r.dropWhile pyIsSpace).tail)
  else
    if (r.dropWhile pyIsSpace).headD ' ' = '.' then
      (r.takeWhile pyIsSpace ++ (r.dropWhile pyIsSpace).take 1,
       (r.dropWhile pyIsSpace).tail)
    else (r.takeWhile pyIsSpace, r.dropWhile pyIsSpace)

theorem optTailLen (r : Str) : (optTail r).2.length ≤ r.length := by
  have h := lenDropWhileLe pyIsSpace r
  unfold optTail
  split_ifs <;> simp [List.length_tail] <;> omega

/-- One match of the first author pattern
`([А-ЯЁA-Z][а-яёa-z]+),\s*([А-ЯЁA-Z]\.\s*[А-ЯЁA-Z]?\.?)` of
`parse_authors`: returns the family group, the initials group and the
remainder after the match. -/
def p1At : Str → Option (Str × Str × Str)
  | [] => none
  | c :: t =>
    if isUpperAZ c ∧ t.takeWhile isLowerAZ ≠ [] ∧
        (t.dropWhile isLowerAZ).headD ' ' = ',' ∧
        isUpperAZ (((t.dropWhile isLowerAZ).tail.dropWhile pyIsSpace).headD ' ') ∧
        ((t.dropWhile isLowerAZ).tail.dropWhile pyIsSpace).tail.headD ' ' = '.'
    then
      some (c :: t.takeWhile isLowerAZ,
        ((t.dropWhile isLowerAZ).tail.dropWhile pyIsSpace).take 2 ++
          (optTail (((t.dropWhile isLowerAZ).tail.dropWhile pyIsSpace).tail.tail)).1,
        (optTail (((t.dropWhile isLowerAZ).tail.dropWhile pyIsSpace).tail.tail)).2)
    else none

theorem p1AtLen {s f g r : Str} (h : p1At s = some (f, g, r)) : r.length < s.length := by
  cases s with
  | nil => simp [p1At] at h
  | cons c t =>
    simp only [p1At] at h
    split_ifs at h
    simp only [Option.some.injEq, Prod.mk.injEq] at h
    rcases h with ⟨-, -, hr⟩
    subst hr
    have h₁ := optTailLen (((t.dropWhile isLowerAZ).tail.dropWhile pyIsSpace).tail.tail)
    have h₂ := lenDropWhileLe pyIsSpace (t.dropWhile isLowerAZ).tail
    have h₃ := lenDropWhileLe isLowerAZ t
    simp only [List.length_tail] at h₁ h₂ ⊢
    simp only [List.length_cons]
    omega

/-- `re.findall` for the first author pattern: non-overlapping matches,
scanning left to right. -/
def findP1Go : Nat → Str → List (Str × Str)
  | _, [] => []
  | 0, _ => []
  | fuel + 1, c :: t =>
    match p1At (c :: t) with
    | some (f, g, rest) => (f, g) :: findP1Go fuel rest
    | none => findP1Go fuel t

/-- `re.findall` for the first author pattern: non-overlapping matches,
scanning left to right; `p1AtLen` shows each match consumes at least one
character, so length fuel suffices. -/
def findP1 (s : Str) : List (Str × Str) := findP1Go s.length s

/-- `\s+` then a family name: the shared tail of the second author
pattern's backtracking branches. -/
def wsFam (r : Str) : Option (Str × Str) :=
  if r.takeWhile pyIsSpace ≠ [] then famAt (r.dropWhile pyIsSpace) else none

theorem wsFamLen {r f rest : Str} (h : wsFam r = some (f, rest)) :
    rest.length < r.length := by
  unfold wsFam at h
  split_ifs at h
  have h₁ := famAtLen h
  have h₂ := lenDropWhileLe pyIsSpace r
  omega

/-- Branch of pattern 2 with `optU` and `optDot` both taken
(`[А-ЯЁA-Z]` then `\.`), then `\s+` and the family. -/
def p2cand1 (s : Str) : Option (Str × Str × Str) :=
  if isUpperAZ (s.headD ' ') ∧ s.tail.headD ' ' = '.' then
    match wsFam s.tail.tail with
    | some (f, rest) => some (s.take 2, f, rest)
    | none => none
  else none

theorem p2cand1Len {s g f rest : Str} (h : p2cand1 s = some (g, f, rest)) :
    rest.length < s.length := by
  unfold p2cand1 at h
  split_ifs at h with hc
  split at h
  next f₂ r₂ hws =>
    simp only [Option.some.injEq, Prod.mk.injEq] at h
    rcases h with ⟨-, -, hr⟩
    subst hr
    have h₁ := wsFamLen hws
    have h₂ : s ≠ [] := by
      intro he
      rw [he] at hc
      simp [isUpperAZ, isCyrUpperYo, isCyrUpperBase, isLatUpper] at hc
    simp only [List.length_tail] at h₁
    rcases s with - | ⟨a, t⟩
    · exact absurd rfl h₂
    · simp at h₁ ⊢
      omega
  next => simp at h

/-- Branch with the optional initial taken and `\.?` empty, then `\s+`
and the family. -/
def p2cand2 (s : Str) : Option (Str × Str × Str) :=
  if isUpperAZ (s.headD ' ') then
    match wsFam s.tail with
    | some (f, rest) => some (s.take 1, f, rest)
    | none => none
  else none

theorem p2cand2Len {s g f rest : Str} (h : p2cand2 s = some (g, f, rest)) :
    rest.length < s.length := by
  unfold p2cand2 at h
  split_ifs at h with hc
  split at h
  next f₂ r₂ hws =>
    simp only [Option.some.injEq, Prod.mk.injEq] at h
    rcases h with ⟨-, -, hr⟩
    subst hr
    have h₁ := wsFamLen hws
    simp only [List.length_tail] at h₁
    omega
  next => simp at h

/-- Branch with the optional initial empty and `\.?` taken, then `\s+`
and the family. -/
def p2cand3 (s : Str) : Option (Str × Str × Str) :=
  if s.headD ' ' = '.' then
    match wsFam s.tail with
    | some (f, rest) => some (s.take 1, f, rest)
    | none => none
  else none

theorem p2cand3Len {s g f rest : Str} (h : p2cand3 s = some (g, f, rest)) :
    rest.length < s.length := by
  unfold p2cand3 at h
  split_ifs at h with hc
  split at h
  next f₂ r₂ hws =>
    simp only [Option.some.injEq, Prod.mk.injEq] at h
    rcases h with ⟨-, -, hr⟩
    subst hr
    have h₁ := wsFamLen hws
    simp only [List.length_tail] at h₁
    omega
  next => simp at h

/-- Backtracking fallback: the greedy `\s*` inside the group gives one
whitespace character back to the mandatory `\s+`, both optionals stay
empty, and the family starts right after the whitespace run. -/
def p2cand4 (w r : Str) : Option (Str × Str × Str) :=
  if w ≠ [] then
    match famAt r with
    | some (f, rest) => some (w.dropLast, f, rest)
    | none => none
  else none

theorem p2cand4Len {w r g f rest : Str} (h : p2cand4 w r = some (g, f, rest)) :
    rest.length < r.length := by
  unfold p2cand4 at h
  split_ifs at h with hc
  split at h
  next f₂ r₂ hfam =>
    simp only [Option.some.injEq, Prod.mk.injEq] at h
    rcases h with ⟨-, -, hr⟩
    subst hr
    exact famAtLen hfam
  next => simp at h

/-- One match of the second author pattern
`([А-ЯЁA-Z]\.\s*[А-ЯЁA-Z]?\.?)\s+([А-ЯЁA-Z][а-яёa-z]+)` of
`parse_authors`: an initial `X.`, a greedy whitespace run, then the four
backtracking branches in the preference order of CPython's engine.
Returns the initials group, the family group and the remainder. -/
def p2At : Str → Option (Str × Str × Str)
  | [] => none
  | c :: t =>
    if isUpperAZ c ∧ t.headD ' ' = '.' then
      match p2cand1 (t.tail.dropWhile pyIsSpace) with
      | some (g, f, rest) =>
        some (c :: '.' :: (t.tail.takeWhile pyIsSpace ++ g), f, rest)
      | none =>
        match p2cand2 (t.tail.dropWhile pyIsSpace) with
        | some (g, f, rest) =>
          some (c :: '.' :: (t.tail.takeWhile pyIsSpace ++ g), f, rest)
        | none =>
          match p2cand3 (t.tail.dropWhile pyIsSpace) with
          | some (g, f, rest) =>
            some (c :: '.' :: (t.tail.takeWhile pyIsSpace ++ g), f, rest)
          | none =>
            match p2cand4 (t.tail.takeWhile pyIsSpace) (t.tail.dropWhile pyIsSpace) with
            | some (g, f, rest) => some (c :: '.' :: g, f, rest)
            | none => none
    else none


theorem p2AtLen {s g f rest : Str} (h : p2At s = some (g, f, rest)) :
    rest.length < s.length := by
  cases s with
  | nil => simp [p2At] at h
  | cons c t =>
    simp only [p2At] at h
    split_ifs at h with hc
    have hb : ∀ r₂ : Str, r₂.length < (t.tail.dropWhile pyIsSpace).length →
        r₂.length < (c :: t).length := by
      intro r₂ hlt
      have h₁ := lenDropWhileLe pyIsSpace t.tail
      simp only [List.length_tail] at h₁ hlt
      simp only [List.length_cons]
      omega
    split at h
    next heq =>
      simp only [Option.some.injEq, Prod.mk.injEq] at h
      rcases h with ⟨-, -, hr⟩
      subst hr
      exact hb _ (p2cand1Len heq)
    next =>
      split at h
      next heq =>
        simp only [Option.some.injEq, Prod.mk.injEq] at h
        rcases h with ⟨-, -, hr⟩
        subst hr
        exact hb _ (p2cand2Len heq)
      next =>
        split at h
        next heq =>
          simp only [Option.some.injEq, Prod.mk.injEq] at h
          rcases h with ⟨-, -, hr⟩
          subst hr
          exact hb _ (p2cand3Len heq)
        next =>
          split at h
          next heq =>
            simp only [Option.some.injEq, Prod.mk.injEq] at h
            rcases h with ⟨-, -, hr⟩
            subst hr
            exact hb _ (p2cand4Len heq)
          next => exact absurd h (by simp)

/-- `re.findall` for the second author pattern. -/
def findP2Go : Nat → Str → List (Str × Str)
  | _, [] => []
  | 0, _ => []
  | fuel + 1, c :: t =>
    match p2At (c :: t) with
    | some (g, f, rest) => (g, f) :: findP2Go fuel rest
    | none => findP2Go fuel t

/-- `re.findall` for the second author pattern; `p2AtLen` shows each
match consumes at least one character, so length fuel suffices. -/
def findP2 (s : Str) : List (Str × Str) := findP2Go s.length s

/-- `VAKParser.parse_authors`: first the inverted `Фамилия, И. О.`
pattern; when it finds nothing, the direct `И. О. Фамилия` pattern
capped at four matches; at most ten authors are returned either way. -/
def parse_authors (text : Str) : List Str :=
  if findP1 text ≠ [] then
    ((findP1 text).map (fun p => p.1 ++ ", ".data ++ pyStrip p.2)).take 10
  else
    (((findP2 text).take 4).map (fun p => p.2 ++ ", ".data ++ pyStrip p.1)).take 10

/-- A year token `19[5-9]\d|20[0-2]\d` at this position, with its value
and the remainder. -/
def yearNumAt : Str → Option (Nat × Str)
  | '1' :: '9' :: a :: b :: t =>
    if 53 ≤ a.toNat ∧ a.toNat ≤ 57 ∧ isDigitC b then
      some (1900 + (a.toNat - 48) * 10 + (b.toNat - 48), t)
    else none
  | '2' :: '0' :: a :: b :: t =>
    if 48 ≤ a.toNat ∧ a.toNat ≤ 50 ∧ isDigitC b then
      some (2000 + (a.toNat - 48) * 10 + (b.toNat - 48), t)
    else none
  | _ => none

/-- One position of `[,–—]\s*(19[5-9]\d|20[0-2]\d)\s*[.–—]`, the strict
publication-year pattern of `parse_year`. -/
def year1At : Str → Option Nat
  | c :: t =>
    if c = ',' ∨ c = '–' ∨ c = '—' then
      match yearNumAt (t.dropWhile pyIsSpace) with
      | some (y, t2) =>
        if (t2.dropWhile pyIsSpace).headD ' ' = '.' ∨
            (t2.dropWhile pyIsSpace).headD ' ' = '–' ∨
            (t2.dropWhile pyIsSpace).headD ' ' = '—' then
          some y
        else none
      | none => none
    else none
  | [] => none

/-- One position of the fallback `\b(19[5-9]\d|20[0-2]\d)\b`. -/
def year2At (prev : Option Char) (s : Str) : Option Nat :=
  if prevBoundary prev then
    match yearNumAt s with
    | some (y, t2) => if nextBoundary t2 then some y else none
    | none => none
  else none

/-- `VAKParser.parse_year`. -/
def parse_year (text : Str) : Option Nat :=
  match searchFirst year1At text with
  | some y => some y
  | none => searchPrevFirst year2At none text

/-- One position of `[А-ЯЁA-Z]\.\s+([^/]+)\s*/`, the author-anchored
title pattern: an initial, a nonempty whitespace run, a nonempty run up
to the first slash (`\s*` retracting at most the final characters of the
greedy group, which strip anyway). -/
def titleAt : Str → Option Str
  | c :: t =>
    if isUpperAZ c ∧ t.headD ' ' = '.' then
      if 1 ≤ (t.tail.takeWhile pyIsSpace).length ∧
          t.tail.findIdx (· = '/') < t.tail.length ∧ 2 ≤ t.tail.findIdx (· = '/') then
        some (pyStrip
          ((t.tail.drop
              (min (t.tail.takeWhile pyIsSpace).length (t.tail.findIdx (· = '/') - 1))).take
            (t.tail.findIdx (· = '/') -
              min (t.tail.takeWhile pyIsSpace).length (t.tail.findIdx (· = '/') - 1))))
      else none
    else none
  | [] => none

/-- The anchored fallback `^([^:]+):` of `parse_title`. -/
def titleColon (s : Str) : Str :=
  if s.findIdx (· = ':') < s.length ∧ 1 ≤ s.findIdx (· = ':') then
    pyStrip (s.take (s.findIdx (· = ':')))
  else []

/-- `VAKParser.parse_title`. -/
def parse_title (text : Str) : Str :=
  match searchFirst titleAt text with
  | some g => g
  | none => titleColon text

/-- One position of `[–—]\s*(\d+)\s*[сpсc]\.`, the page-count pattern. -/
def pages1At : Str → Option Str
  | c :: t =>
    if c = '–' ∨ c = '—' then
      if (t.dropWhile pyIsSpace).takeWhile isDigitC ≠ [] ∧
          ((((t.dropWhile pyIsSpace).dropWhile isDigitC).dropWhile pyIsSpace).headD ' ' = 'с' ∨
           (((t.dropWhile pyIsSpace).dropWhile isDigitC).dropWhile pyIsSpace).headD ' ' = 'p' ∨
           (((t.dropWhile pyIsSpace).dropWhile isDigitC).dropWhile pyIsSpace).headD ' ' = 'c') ∧
          (((t.dropWhile pyIsSpace).dropWhile isDigitC).dropWhile pyIsSpace).tail.headD ' ' = '.'
      then some ((t.dropWhile pyIsSpace).takeWhile isDigitC)
      else none
    else none
  | [] => none

/-- One position of `[СCС]\.\s*(\d+[–—-]\d+)`, the page-range pattern. -/
def pages2At : Str → Option Str
  | c :: t =>
    if (c = 'С' ∨ c = 'C') ∧ t.headD ' ' = '.' then
      if (t.tail.dropWhile pyIsSpace).takeWhile isDigitC ≠ [] ∧
          (((t.tail.dropWhile pyIsSpace).dropWhile isDigitC).headD ' ' = '–' ∨
           ((t.tail.dropWhile pyIsSpace).dropWhile isDigitC).headD ' ' = '—' ∨
           ((t.tail.dropWhile pyIsSpace).dropWhile isDigitC).headD ' ' = '-') ∧
          ((t.tail.dropWhile pyIsSpace).dropWhile isDigitC).tail.takeWhile isDigitC ≠ []
      then some ((t.tail.dropWhile pyIsSpace).takeWhile isDigitC ++
        ((t.tail.dropWhile pyIsSpace).dropWhile isDigitC).headD ' ' ::
          ((t.tail.dropWhile pyIsSpace).dropWhile isDigitC).tail.takeWhile isDigitC)
      else none
    else none
  | [] => none

/-- `VAKParser.parse_pages`. -/
def parse_pages (text : Str) : Option Str :=
  match searchFirst pages1At text with
  | some d => some d
  | none => searchFirst pages2At text

/-- One position of `[–—]\s*[А-ЯЁA-Za-zа-яё]+\s*:\s*([^,]+?),`, the
publisher pattern (`+?` lazy: the group runs to the first comma, with
the greedy `\s*` before it retracting at most characters that strip). -/
def pubAt : Str → Option Str
  | c :: t =>
    if c = '–' ∨ c = '—' then
      if (t.dropWhile pyIsSpace).takeWhile isRuleLetter ≠ [] ∧
          ((((t.dropWhile pyIsSpace).dropWhile isRuleLetter).dropWhile pyIsSpace).headD ' ' = ':') ∧
          ((((t.dropWhile pyIsSpace).dropWhile isRuleLetter).dropWhile pyIsSpace).tail.findIdx (· = ',') <
            (((t.dropWhile pyIsSpace).dropWhile isRuleLetter).dropWhile pyIsSpace).tail.length) ∧
          1 ≤ (((t.dropWhile pyIsSpace).dropWhile isRuleLetter).dropWhile pyIsSpace).tail.findIdx (· = ',')
      then
        some (pyStrip
          (((((t.dropWhile pyIsSpace).dropWhile isRuleLetter).dropWhile pyIsSpace).tail.drop
              (min ((((t.dropWhile pyIsSpace).dropWhile isRuleLetter).dropWhile pyIsSpace).tail.takeWhile pyIsSpace).length
                ((((t.dropWhile pyIsSpace).dropWhile isRuleLetter).dropWhile pyIsSpace).tail.findIdx (· = ',') - 1))).take
            ((((t.dropWhile pyIsSpace).dropWhile isRuleLetter).dropWhile pyIsSpace).tail.findIdx (· = ',') -
              min ((((t.dropWhile pyIsSpace).dropWhile isRuleLetter).dropWhile pyIsSpace).tail.takeWhile pyIsSpace).length
                ((((t.dropWhile pyIsSpace).dropWhile isRuleLetter).dropWhile pyIsSpace).tail.findIdx (· = ',') - 1))))
      else none
    else none
  | [] => none

/-- `VAKParser.parse_publisher`. -/
def parse_publisher (text : Str) : Option Str := searchFirst pubAt text

/-- One position of `[–—]\s*([А-ЯЁ][а-яё]+(?:\s*;\s*[А-ЯЁ][а-яё]+)?)\s*:`,
the city pattern; the optional second city is tried greedily first. -/
def cityAt : Str → Option Str
  | c :: t =>
    if c = '–' ∨ c = '—' then
      if isCyrUpperYo ((t.dropWhile pyIsSpace).headD ' ') ∧
          (t.dropWhile pyIsSpace).tail.takeWhile isCyrLowerYo ≠ [] then
        if ((((t.dropWhile pyIsSpace).tail.dropWhile isCyrLowerYo).dropWhile pyIsSpace).headD ' ' = ';') ∧
            isCyrUpperYo
              (((((t.dropWhile pyIsSpace).tail.dropWhile isCyrLowerYo).dropWhile pyIsSpace).tail.dropWhile pyIsSpace).headD ' ') ∧
            ((((((t.dropWhile pyIsSpace).tail.dropWhile isCyrLowerYo).dropWhile pyIsSpace).tail.dropWhile pyIsSpace).tail.takeWhile isCyrLowerYo) ≠ []) ∧
            (((((((t.dropWhile pyIsSpace).tail.dropWhile isCyrLowerYo).dropWhile pyIsSpace).tail.dropWhile pyIsSpace).tail.dropWhile isCyrLowerYo).dropWhile pyIsSpace).headD ' ' = ':')
        then
          some (pyStrip
            (((t.dropWhile pyIsSpace).headD ' ' :: (t.dropWhile pyIsSpace).tail.takeWhile isCyrLowerYo) ++
              ((t.dropWhile pyIsSpace).tail.dropWhile isCyrLowerYo).takeWhile pyIsSpace ++
              ';' :: (((t.dropWhile pyIsSpace).tail.dropWhile isCyrLowerYo).dropWhile pyIsSpace).tail.takeWhile pyIsSpace ++
              ((((t.dropWhile pyIsSpace).tail.dropWhile isCyrLowerYo).dropWhile pyIsSpace).tail.dropWhile pyIsSpace).headD ' ' ::
                (((((t.dropWhile pyIsSpace).tail.dropWhile isCyrLowerYo).dropWhile pyIsSpace).tail.dropWhile pyIsSpace).tail.takeWhile isCyrLowerYo)))
        else if (((t.dropWhile pyIsSpace).tail.dropWhile isCyrLowerYo).dropWhile pyIsSpace).headD ' ' = ':' then
          some (pyStrip ((t.dropWhile pyIsSpace).headD ' ' :: (t.dropWhile pyIsSpace).tail.takeWhile isCyrLowerYo))
        else none
      else none
    else none
  | [] => none

/-- `VAKParser.parse_city`. -/
def parse_city (text : Str) : Option Str := searchFirst cityAt text

/-- One position of `//\s*([^.–—]+)[.–—]`, the journal pattern. -/
def jAt : Str → Option Str
  | '/' :: '/' :: t =>
    if t.findIdx (fun c => c = '.' ∨ c = '–' ∨ c = '—') < t.length ∧
        1 ≤ t.findIdx (fun c => c = '.' ∨ c = '–' ∨ c = '—') then
      some (pyStrip
        ((t.drop
            (min (t.takeWhile pyIsSpace).length
              (t.findIdx (fun c => c = '.' ∨ c = '–' ∨ c = '—') - 1))).take
          (t.findIdx (fun c => c = '.' ∨ c = '–' ∨ c = '—') -
            min (t.takeWhile pyIsSpace).length
              (t.findIdx (fun c => c = '.' ∨ c = '–' ∨ c = '—') - 1))))
    else none
  | _ => none

/-- `VAKParser.parse_journal`. -/
def parse_journal (text : Str) : Option Str := searchFirst jAt text

/-- One position of `[ТT]\.?\s*(\d+)` with `re.IGNORECASE`. -/
def volAt : Str → Option Str
  | c :: t =>
    if pyLower c = 'т' ∨ pyLower c = 't' then
      if ((if t.headD ' ' = '.' then t.tail else t).dropWhile pyIsSpace).takeWhile isDigitC ≠ []
      then some (((if t.headD ' ' = '.' then t.tail else t).dropWhile pyIsSpace).takeWhile isDigitC)
      else none
    else none
  | [] => none

/-- The volume component of `VAKParser.parse_volume_issue`. -/
def parse_volume (text : Str) : Option Str := searchFirst volAt text

/-- One position of `[№N][оo]?\.?\s*(\d+)` with `re.IGNORECASE`. -/
def issueAt : Str → Option Str
  | c :: t =>
    if c = '№' ∨ pyLower c = 'n' then
      if (((if (if pyLower (t.headD ' ') = 'о' ∨ pyLower (t.headD ' ') = 'o' then t.tail else t).headD ' ' = '.'
            then (if pyLower (t.headD ' ') = 'о' ∨ pyLower (t.headD ' ') = 'o' then t.tail else t).tail
            else (if pyLower (t.headD ' ') = 'о' ∨ pyLower (t.headD ' ') = 'o' then t.tail else t)).dropWhile pyIsSpace).takeWhile isDigitC) ≠ []
      then some (((if (if pyLower (t.headD ' ') = 'о' ∨ pyLower (t.headD ' ') = 'o' then t.tail else t).headD ' ' = '.'
            then (if pyLower (t.headD ' ') = 'о' ∨ pyLower (t.headD ' ') = 'o' then t.tail else t).tail
            else (if pyLower (t.headD ' ') = 'о' ∨ pyLower (t.headD ' ') = 'o' then t.tail else t)).dropWhile pyIsSpace).takeWhile isDigitC)
      else none
    else none
  | [] => none

/-- The issue component of `VAKParser.parse_volume_issue`. -/
def parse_issue (text : Str) : Option Str := searchFirst issueAt text

/-- The `[^\s<>"]` class of the URL pattern. -/
def urlChar (c : Char) : Bool := !pyIsSpace c && c ≠ '<' && c ≠ '>' && c ≠ '"'

/-- One position of `(https?://[^\s<>"]+)`. -/
def urlAt (s : Str) : Option Str :=
  if "http".data.isPrefixOf s then
    if (s.drop 4).headD ' ' = 's' ∧ "://".data.isPrefixOf (s.drop 4).tail then
      if ((s.drop 4).tail.drop 3).takeWhile urlChar ≠ [] then
        some ("https://".data ++ ((s.drop 4).tail.drop 3).takeWhile urlChar)
      else none
    else if "://".data.isPrefixOf (s.drop 4) then
      if ((s.drop 4).drop 3).takeWhile urlChar ≠ [] then
        some ("http://".data ++ ((s.drop 4).drop 3).takeWhile urlChar)
      else none
    else none
  else none

/-- `VAKParser.parse_url` (the match is right-stripped of periods). -/
def parse_url (text : Str) : Option Str := (searchFirst urlAt text).map rstripDot

/-- The `DD.MM.YYYY` shape `\d{2}\.\d{2}\.\d{4}`. -/
def dateShape : Str → Bool
  | [a, b, '.', c, d, '.', e, f, g, h] =>
    isDigitC a && isDigitC b && isDigitC c && isDigitC d &&
      isDigitC e && isDigitC f && isDigitC g && isDigitC h
  | _ => false

/-- One position of `дата\s+обращения[:\s]*(\d{2}\.\d{2}\.\d{4})` with
`re.IGNORECASE` (the literal words compared after lowercasing). -/
def adAt (s : Str) : Option Str :=
  if (s.take 4).map pyLower = "дата".data ∧ (s.drop 4).takeWhile pyIsSpace ≠ [] ∧
      (((s.drop 4).dropWhile pyIsSpace).take 9).map pyLower = "обращения".data then
    if dateShape (((((s.drop 4).dropWhile pyIsSpace).drop 9).dropWhile
        (fun c => c = ':' || pyIsSpace c)).take 10) then
      some (((((s.drop 4).dropWhile pyIsSpace).drop 9).dropWhile
        (fun c => c = ':' || pyIsSpace c)).take 10)
    else none
  else none

/-- `VAKParser.parse_access_date`: note that only the prefix
`дата обращения` (case-insensitively) is accepted. -/
def parse_access_date (text : Str) : Option Str := searchFirst adAt text

/-- One position of `(10\.\d{4,}/[^\s]+)`. -/
def doiAt : Str → Option Str
  | '1' :: '0' :: '.' :: t =>
    if 4 ≤ (t.takeWhile isDigitC).length ∧ (t.dropWhile isDigitC).headD ' ' = '/' ∧
        (t.dropWhile isDigitC).tail.takeWhile (fun c => !pyIsSpace c) ≠ [] then
      some ('1' :: '0' :: '.' :: t.takeWhile isDigitC ++
        '/' :: (t.dropWhile isDigitC).tail.takeWhile (fun c => !pyIsSpace c))
    else none
  | _ => none

/-- `VAKParser.parse_doi` (the match is right-stripped of periods). -/
def parse_doi (text : Str) : Option Str := (searchFirst doiAt text).map rstripDot

/-- The `InputMetadata` dataclass of `vak_parser.py`. -/
structure InputMetadata where
  authors : List String
  title : String
  year : Option Nat
  publisher : Option String
  city : Option String
  pages : Option String
  isbn : Option String
  doi : Option String
  url : Option String
  access_date : Option String
  volume : Option String
  issue : Option String
  journal_title : Option String
  edition : Option String
deriving DecidableEq

/-- The `DatasetRecord` dataclass of `vak_parser.py`, with the float
`parsing_confidence` modelled over `ℚ`. -/
structure DatasetRecord where
  id : String
  source_type : String
  country_standard : String
  input_metadata : InputMetadata
  formatted_output : String
  raw_example : String
  parsing_confidence : ℚ
deriving DecidableEq

/-- `VAKParser.generate_id` builds `md5(f"{text[:50]}_{index}")[:12]`;
the MD5 digest itself is outside the scope of every claim, so the model
keeps the digest's preimage `f"{text[:50]}_{index}"` as the identifier. -/
def generate_id (text : Str) (index : Nat) : String :=
  ⟨text.take 50⟩ ++ "_" ++ toString index

/-- `VAKParser.parse_example`: the length guard, the field extraction
and the confidence scoring with its penalties and its floor. -/
def parse_example (example_text : Str) (source_type : String) (index : Nat) :
    Option DatasetRecord :=
  if example_text.length < 30 then none
  else
    some {
      id := generate_id example_text index
      source_type := source_type
      country_standard := "BY"
      input_metadata := {
        authors := (parse_authors example_text).map (fun a => (⟨a⟩ : String))
        title := ⟨parse_title example_text⟩
        year := parse_year example_text
        publisher := (parse_publisher example_text).map (fun a => (⟨a⟩ : String))
        city := (parse_city example_text).map (fun a => (⟨a⟩ : String))
        pages := (parse_pages example_text).map (fun a => (⟨a⟩ : String))
        isbn := none
        doi := (parse_doi example_text).map (fun a => (⟨a⟩ : String))
        url := (parse_url example_text).map (fun a => (⟨a⟩ : String))
        access_date := (parse_access_date example_text).map (fun a => (⟨a⟩ : String))
        volume := (parse_volume example_text).map (fun a => (⟨a⟩ : String))
        issue := (parse_issue example_text).map (fun a => (⟨a⟩ : String))
        journal_title := (parse_journal example_text).map (fun a => (⟨a⟩ : String))
        edition := none }
      formatted_output := ⟨pyStrip example_text⟩
      raw_example := ⟨pyStrip example_text⟩
      parsing_confidence :=
        ratMax (tenths 3)
          (tenths (10 - (if parse_authors example_text = [] then 2 else 0)
             - (if parse_title example_text = [] then 3 else 0)
             - (if parse_year example_text = none then 1 else 0))) }

end Vak

namespace Validate

/-! Embedding of item 6 of `check_punctuation_errors` from
`src/validate_dataset.py`: `finditer` of `(\d{4})-(\d{4})` and the
conservative year-range condition `1990 <= year1 < year2 <= 2030`. -/

/-- All `(\d{4})-(\d{4})` matches (as number pairs), scanning left to
right, non-overlapping. -/
def yearPairs : Str → List (Nat × Nat)
  | a :: b :: c :: d :: e :: f :: g :: i :: j :: t =>
    if isDigitC a ∧ isDigitC b ∧ isDigitC c ∧ isDigitC d ∧ e = '-' ∧
        isDigitC f ∧ isDigitC g ∧ isDigitC i ∧ isDigitC j then
      ((a.toNat - 48) * 1000 + (b.toNat - 48) * 100 + (c.toNat - 48) * 10 + (d.toNat - 48),
       (f.toNat - 48) * 1000 + (g.toNat - 48) * 100 + (i.toNat - 48) * 10 + (j.toNat - 48)) ::
        yearPairs t
    else yearPairs (b :: c :: d :: e :: f :: g :: i :: j :: t)
  | _ :: t => yearPairs t
  | [] => []

/-- The pairs that item 6 reports as `hyphen_instead_of_dash` errors:
exactly the matches with `1990 <= year1 < year2 <= 2030`. -/
def hyphenYearRangeHits (s : Str) : List (Nat × Nat) :=
  (yearPairs s).filter (fun p => decide (1990 ≤ p.1 ∧ p.1 < p.2 ∧ p.2 ≤ 2030))

/-- Is the `hyphen_instead_of_dash` issue recorded for this text? -/
def hyphenFlagged (s : Str) : Bool := !(hyphenYearRangeHits s).isEmpty

end Validate

namespace Metadata

/-! Embedding of `MetadataLookup.detect_identifier` (and the declared
but unconsulted `ISBN_10_PATTERN`) from `src/metadata_lookup.py`. -/

/-- `DOI_PATTERN.match` on a stripped string: `^10\.\d{4,}/[^\s]+$`. -/
def doiFull : Str → Bool
  | '1' :: '0' :: '.' :: t =>
    decide (4 ≤ (t.takeWhile isDigitC).length) &&
      (match t.dropWhile isDigitC with
       | '/' :: r => !r.isEmpty && r.all (fun c => !pyIsSpace c)
       | _ => false)
  | _ => false

/-- `MetadataLookup.detect_identifier`: DOI first; then the hyphen- and
space-stripped form; 13 digits → ISBN; any 10 characters → ISBN (no
digit test); otherwise unknown. -/
def detect_identifier (text : Str) : String × Str :=
  if doiFull (pyStrip text) then ("doi", pyStrip text)
  else if ((pyStrip text).filter (fun c => c ≠ '-' && c ≠ ' ')).length = 13 ∧
      ((pyStrip text).filter (fun c => c ≠ '-' && c ≠ ' ')).all isDigitC then
    ("isbn", (pyStrip text).filter (fun c => c ≠ '-' && c ≠ ' '))
  else if ((pyStrip text).filter (fun c => c ≠ '-' && c ≠ ' ')).length = 10 then
    ("isbn", (pyStrip text).filter (fun c => c ≠ '-' && c ≠ ' '))
  else ("unknown", pyStrip text)

/-- The declared `ISBN_10_PATTERN`
`^(\d{9}[\dXx]|\d{1,5}-\d{1,7}-\d{1,7}-[\dXx])$` — defined here only to
exhibit that `detect_identifier` never consults it. -/
def isbn10Match (s : Str) : Bool :=
  (decide (s.length = 10) && (s.take 9).all isDigitC &&
    (match s.drop 9 with
     | [x] => isDigitC x || x = 'X' || x = 'x'
     | _ => false)) ||
  (match s.splitOn '-' with
   | [a, b, c, d] =>
     decide (1 ≤ a.length ∧ a.length ≤ 5) && a.all isDigitC &&
       decide (1 ≤ b.length ∧ b.length ≤ 7) && b.all isDigitC &&
       decide (1 ≤ c.length ∧ c.length ≤ 7) && c.all isDigitC &&
       (match d with
        | [x] => isDigitC x || x = 'X' || x = 'x'
        | _ => false)
   | _ => false)

end Metadata

namespace Expander

/-! Embedding of `DatasetExpander` from `src/dataset_expander.py`.  The
loaded JSON records are modelled with the fields the `expand` loop and
its claim read; `create_variation`'s randomized text substitutions and
the MD5 of `gen_id` are abstracted by an oracle `vary` over which every
theorem quantifies universally. -/

/-- A dataset record as `expand` sees it. -/
structure ExpRecord where
  id : String
  source_type : String
  country_standard : String
  formatted_output : String
  is_variation : Bool
  original_id : String
  variation_number : Nat
deriving DecidableEq

/-- `gen_id(text, idx)` is `md5(f"{text[:30]}_{idx}")[:12]`; as with
`VAKParser.generate_id` the digest preimage stands in for the digest. -/
def gen_id (text : Str) (idx : Nat) : String :=
  ⟨text.take 30⟩ ++ "_" ++ toString idx

/-- `DatasetExpander.create_variation`, with the randomized year, page,
volume, issue and author substitutions abstracted as `vary`. -/
def create_variation (vary : String → Nat → String) (idx : Nat)
    (r : ExpRecord) (n : Nat) : ExpRecord :=
  { id := gen_id (vary r.formatted_output n).data idx
    source_type := r.source_type
    country_standard := "BY"
    formatted_output := vary r.formatted_output n
    is_variation := true
    original_id := r.id
    variation_number := n }

/-- `dict.get(key, 0)` on the variation-count dictionary. -/
def countsGet (m : List (String × Nat)) (k : String) : Nat :=
  match m.find? (fun p => p.1 == k) with
  | some p => p.2
  | none => 0

/-- `dict[key] = v` (the key is present for every record the loop
touches, but insertion is kept for faithfulness). -/
def countsSet (m : List (String × Nat)) (k : String) (v : Nat) : List (String × Nat) :=
  if m.any (fun p => p.1 == k) then
    m.map (fun p => if p.1 == k then (k, v) else p)
  else m ++ [(k, v)]

/-- `{r.get('id', i): 0 for i, r in enumerate(records_to_vary)}`: one
key per distinct id, value 0. -/
def countsInit (rs : List ExpRecord) : List (String × Nat) :=
  rs.foldl (fun m r => if m.any (fun p => p.1 == r.id) then m else m ++ [(r.id, 0)]) []

/-- `{k: 0 for k in variation_counts}`. -/
def countsReset (m : List (String × Nat)) : List (String × Nat) :=
  m.map (fun p => (p.1, 0))

/-- The mutable state of the `expand` loop. -/
structure ExpState where
  expanded : List ExpRecord
  idx : Nat
  counts : List (String × Nat)

/-- One pass of the inner `for record in records_to_vary` loop. -/
def passOnce (vary : String → Nat → String) (tc vpr : Nat) :
    List ExpRecord → ExpState → ExpState
  | [], st => st
  | r :: rest, st =>
    if tc ≤ st.expanded.length then st
    else if vpr ≤ countsGet st.counts r.id then passOnce vary tc vpr rest st
    else
      passOnce vary tc vpr rest
        { expanded := st.expanded ++ [create_variation vary st.idx r (countsGet st.counts r.id)]
          idx := st.idx + 1
          counts := countsSet st.counts r.id (countsGet st.counts r.id + 1) }

/-- The `while len(self.expanded) < target_count` loop, with explicit
fuel: `none` means the fuel ran out before the loop condition turned
false (for `variations_per_record = 0` the loop in the source runs
forever, and no fuel is enough). -/
def loopFuel (vary : String → Nat → String) (tc vpr : Nat) (rtv : List ExpRecord) :
    Nat → ExpState → Option ExpState
  | 0, _ => none
  | fuel + 1, st =>
    if tc ≤ st.expanded.length then some st
    else
      loopFuel vary tc vpr rtv fuel
        (let st2 := passOnce vary tc vpr rtv st
         if (st2.counts.map (·.2)).all (fun c => vpr ≤ c) then
           { st2 with counts := countsReset st2.counts }
         else st2)

/-- `DatasetExpander.expand`: originals first (copied with
`is_variation = False`), then variations until the target count. -/
def expandFuel (vary : String → Nat → String) (records : List ExpRecord)
    (tc vpr fuel : Nat) : Option (List ExpRecord) :=
  if (records.filter (fun r => r.source_type != "unknown")).isEmpty then
    some (records.map (fun r => { r with is_variation := false }))
  else
    (loopFuel vary tc vpr (records.filter (fun r => r.source_type != "unknown")) fuel
      ⟨records.map (fun r => { r with is_variation := false }), records.length,
        countsInit (records.filter (fun r => r.source_type != "unknown"))⟩).map
      (·.expanded)

/-- Termination of `expand` for given arguments: some fuel suffices. -/
def expandTerminates (vary : String → Nat → String) (records : List ExpRecord)
    (tc vpr : Nat) : Prop :=
  ∃ fuel result, expandFuel vary records tc vpr fuel = some result

end Expander

/-! Support for the year-range claim: a string made only of decimal
digits and ASCII hyphens is a fixed point of `clean_text` (none of the
punctuation rules can fire on it). -/

/-- Every character is a digit or an ASCII hyphen. -/
def DHonly (s : Str) : Prop := ∀ c ∈ s, isDigitC c = true ∨ c = '-'

theorem dhToNat {c : Char} (h : isDigitC c = true ∨ c = '-') :
    (48 ≤ c.toNat ∧ c.toNat ≤ 57) ∨ c.toNat = 45 := by
  rcases h with h | h
  · simp [isDigitC] at h
    exact Or.inl h
  · subst h
    exact Or.inr (by decide)

theorem dhNe {c : Char} (h : isDigitC c = true ∨ c = '-') {x : Char}
    (hx : (x.toNat < 48 ∨ 57 < x.toNat) ∧ x.toNat ≠ 45) : c ≠ x := by
  intro he
  subst he
  rcases dhToNat h with h₁ | h₁ <;> omega

theorem dhTail {c : Char} {t : Str} (h : DHonly (c :: t)) : DHonly t :=
  fun x hx => h x (by simp [hx])

theorem dhHead {c : Char} {t : Str} (h : DHonly (c :: t)) :
    isDigitC c = true ∨ c = '-' := h c (by simp)

theorem replaceAllGoId {p₀ : Char} {pr rep : Str} :
    ∀ (fuel : Nat) (s : Str), (∀ c ∈ s, c ≠ p₀) →
      replaceAllGo (p₀ :: pr) rep fuel s = s := by
  intro fuel
  induction fuel with
  | zero =>
    intro s _
    cases s <;> rfl
  | succ f ih =>
    intro s h
    cases s with
    | nil => rfl
    | cons c t =>
      have hc : List.isPrefixOf (p₀ :: pr) (c :: t) = false := by
        simp only [List.isPrefixOf, Bool.and_eq_false_iff]
        left
        simp only [beq_eq_false_iff_ne]
        exact fun he => (h c (by simp)) he.symm
      rw [replaceAllGo]
      rw [if_neg (by simp [hc])]
      rw [ih t (fun x hx => h x (by simp [hx]))]

theorem replaceAllId {p₀ : Char} {pr rep : Str}
    (s : Str) (h : ∀ c ∈ s, c ≠ p₀) : replaceAll (p₀ :: pr) rep s = s :=
  replaceAllGoId s.length s h

theorem sub1aDH (s : Str) (h : DHonly s) : Cleanup.sub1a s = s := by
  unfold Cleanup.sub1a
  rw [show ("журн..".data : Str) = 'ж' :: "урн..".data from rfl]
  exact replaceAllId s (fun c hc => dhNe (h c hc) (by decide))


theorem sub1bDH (s : Str) (h : DHonly s) : Cleanup.sub1b s = s := by
  induction s using Cleanup.sub1b.induct with
  | case1 a b c d t hcond ih =>
    obtain ⟨-, hb, -, -⟩ := hcond
    subst hb
    exact absurd (h '.' (by simp)) (by decide)
  | case2 a b c d t hcond ih =>
    rw [Cleanup.sub1b.eq_def]
    dsimp only
    rw [if_neg hcond, ih (dhTail h)]
  | case3 c t hne ih =>
    rw [Cleanup.sub1b.eq_def]
    split
    · rename_i a2 b2 c2 d2 t2 heq
      rw [List.cons.injEq] at heq
      exact (hne b2 c2 d2 t2 heq.2).elim
    · rename_i c2 t2 heq
      rw [List.cons.injEq] at heq
      rw [← heq.1, ← heq.2, ih (dhTail h)]
    · rename_i heq
      exact (List.cons_ne_nil c t heq).elim
  | case4 => rw [Cleanup.sub1b.eq_def]

theorem sub2DH (s : Str) (h : DHonly s) : Cleanup.sub2 s = s := by
  induction s using Cleanup.sub2.induct with
  | case1 a b t hcond ih =>
    obtain ⟨hb, -⟩ := hcond
    subst hb
    exact absurd (h ' ' (by simp)) (by decide)
  | case2 a b t hcond ih =>
    rw [Cleanup.sub2.eq_def]
    dsimp only
    rw [if_neg hcond, ih (dhTail h)]
  | case3 c t hne ih =>
    rw [Cleanup.sub2.eq_def]
    split
    · rename_i a2 b2 t2 heq
      rw [List.cons.injEq] at heq
      exact (hne b2 t2 heq.2).elim
    · rename_i c2 t2 heq
      rw [List.cons.injEq] at heq
      rw [← heq.1, ← heq.2, ih (dhTail h)]
    · rename_i heq
      exact (List.cons_ne_nil c t heq).elim
  | case4 => rw [Cleanup.sub2.eq_def]

theorem sub3DH (s : Str) (h : DHonly s) : Cleanup.sub3 s = s := by
  induction s using Cleanup.sub3.induct with
  | case1 a b c d t hcond ih =>
    obtain ⟨hb, -, -, -⟩ := hcond
    subst hb
    exact absurd (h '.' (by simp)) (by decide)
  | case2 a b c d t hcond ih =>
    rw [Cleanup.sub3.eq_def]
    dsimp only
    rw [if_neg hcond, ih (dhTail h)]
  | case3 c t hne ih =>
    rw [Cleanup.sub3.eq_def]
    split
    · rename_i a2 b2 c2 d2 t2 heq
      rw [List.cons.injEq] at heq
      exact (hne b2 c2 d2 t2 heq.2).elim
    · rename_i c2 t2 heq
      rw [List.cons.injEq] at heq
      rw [← heq.1, ← heq.2, ih (dhTail h)]
    · rename_i heq
      exact (List.cons_ne_nil c t heq).elim
  | case4 => rw [Cleanup.sub3.eq_def]

theorem sub4DH (s : Str) (h : DHonly s) : Cleanup.sub4 s = s := by
  induction s using Cleanup.sub4.induct with
  | case1 a b t hcond ih =>
    obtain ⟨hb, -⟩ := hcond
    subst hb
    exact absurd (h ':' (by simp)) (by decide)
  | case2 a b t hcond ih =>
    rw [Cleanup.sub4.eq_def]
    dsimp only
    rw [if_neg hcond, ih (dhTail h)]
  | case3 c t hne ih =>
    rw [Cleanup.sub4.eq_def]
    split
    · rename_i a2 b2 t2 heq
      rw [List.cons.injEq] at heq
      exact (hne b2 t2 heq.2).elim
    · rename_i c2 t2 heq
      rw [List.cons.injEq] at heq
      rw [← heq.1, ← heq.2, ih (dhTail h)]
    · rename_i heq
      exact (List.cons_ne_nil c t heq).elim
  | case4 => rw [Cleanup.sub4.eq_def]

theorem sub5aDH (s : Str) (h : DHonly s) : Cleanup.sub5a s = s := by
  induction s using Cleanup.sub5a.induct with
  | case1 a b c d e t hcond ih =>
    obtain ⟨-, hb, -, -, -⟩ := hcond
    subst hb
    exact absurd (h ' ' (by simp)) (by decide)
  | case2 a b c d e t hcond ih =>
    rw [Cleanup.sub5a.eq_def]
    dsimp only
    rw [if_neg hcond, ih (dhTail h)]
  | case3 c t hne ih =>
    rw [Cleanup.sub5a.eq_def]
    split
    · rename_i a2 b2 c2 d2 e2 t2 heq
      rw [List.cons.injEq] at heq
      exact (hne b2 c2 d2 e2 t2 heq.2).elim
    · rename_i c2 t2 heq
      rw [List.cons.injEq] at heq
      rw [← heq.1, ← heq.2, ih (dhTail h)]
    · rename_i heq
      exact (List.cons_ne_nil c t heq).elim
  | case4 => rw [Cleanup.sub5a.eq_def]

theorem sub5bDH (s : Str) (h : DHonly s) : Cleanup.sub5b s = s := by
  induction s using Cleanup.sub5b.induct with
  | case1 a b c d t hcond ih =>
    obtain ⟨-, hb, -, -⟩ := hcond
    subst hb
    exact absurd (h '–' (by simp)) (by decide)
  | case2 a b c d t hcond ih =>
    rw [Cleanup.sub5b.eq_def]
    dsimp only
    rw [if_neg hcond, ih (dhTail h)]
  | case3 c t hne ih =>
    rw [Cleanup.sub5b.eq_def]
    split
    · rename_i a2 b2 c2 d2 t2 heq
      rw [List.cons.injEq] at heq
      exact (hne b2 c2 d2 t2 heq.2).elim
    · rename_i c2 t2 heq
      rw [List.cons.injEq] at heq
      rw [← heq.1, ← heq.2, ih (dhTail h)]
    · rename_i heq
      exact (List.cons_ne_nil c t heq).elim
  | case4 => rw [Cleanup.sub5b.eq_def]

theorem sub5cDH (s : Str) (h : DHonly s) : Cleanup.sub5c s = s := by
  induction s using Cleanup.sub5c.induct with
  | case1 a b c d t hcond ih =>
    obtain ⟨-, hb, -, -⟩ := hcond
    subst hb
    exact absurd (h ' ' (by simp)) (by decide)
  | case2 a b c d t hcond ih =>
    rw [Cleanup.sub5c.eq_def]
    dsimp only
    rw [if_neg hcond, ih (dhTail h)]
  | case3 c t hne ih =>
    rw [Cleanup.sub5c.eq_def]
    split
    · rename_i a2 b2 c2 d2 t2 heq
      rw [List.cons.injEq] at heq
      exact (hne b2 c2 d2 t2 heq.2).elim
    · rename_i c2 t2 heq
      rw [List.cons.injEq] at heq
      rw [← heq.1, ← heq.2, ih (dhTail h)]
    · rename_i heq
      exact (List.cons_ne_nil c t heq).elim
  | case4 => rw [Cleanup.sub5c.eq_def]

theorem sub7DH (s : Str) (h : DHonly s) : Cleanup.sub7 s = s := by
  induction s using Cleanup.sub7.induct with
  | case1 a b c d e f t hcond ih =>
    obtain ⟨-, hb, -, -, -, -⟩ := hcond
    subst hb
    exact absurd (h '.' (by simp)) (by decide)
  | case2 a b c d e f t hcond ih =>
    rw [Cleanup.sub7.eq_def]
    dsimp only
    rw [if_neg hcond, ih (dhTail h)]
  | case3 c t hne ih =>
    rw [Cleanup.sub7.eq_def]
    split
    · rename_i a2 b2 c2 d2 e2 f2 t2 heq
      rw [List.cons.injEq] at heq
      exact (hne b2 c2 d2 e2 f2 t2 heq.2).elim
    · rename_i c2 t2 heq
      rw [List.cons.injEq] at heq
      rw [← heq.1, ← heq.2, ih (dhTail h)]
    · rename_i heq
      exact (List.cons_ne_nil c t heq).elim
  | case4 => rw [Cleanup.sub7.eq_def]

theorem sub8DH (s : Str) (h : DHonly s) : Cleanup.sub8 s = s := by
  induction s using Cleanup.sub8.induct with
  | case1 a b t hcond ih =>
    obtain ⟨hb, -⟩ := hcond
    subst hb
    exact absurd (h '№' (by simp)) (by decide)
  | case2 a b t hcond ih =>
    rw [Cleanup.sub8.eq_def]
    dsimp only
    rw [if_neg hcond, ih (dhTail h)]
  | case3 c t hne ih =>
    rw [Cleanup.sub8.eq_def]
    split
    · rename_i a2 b2 t2 heq
      rw [List.cons.injEq] at heq
      exact (hne b2 t2 heq.2).elim
    · rename_i c2 t2 heq
      rw [List.cons.injEq] at heq
      rw [← heq.1, ← heq.2, ih (dhTail h)]
    · rename_i heq
      exact (List.cons_ne_nil c t heq).elim
  | case4 => rw [Cleanup.sub8.eq_def]

theorem sub9aDH (s : Str) (h : DHonly s) : Cleanup.sub9a s = s := by
  induction s using Cleanup.sub9a.induct with
  | case1 a b c t hcond ih =>
    obtain ⟨hb, -, -⟩ := hcond
    subst hb
    exact absurd (h 'Т' (by simp)) (by decide)
  | case2 a b c t hcond ih =>
    rw [Cleanup.sub9a.eq_def]
    dsimp only
    rw [if_neg hcond, ih (dhTail h)]
  | case3 c t hne ih =>
    rw [Cleanup.sub9a.eq_def]
    split
    · rename_i a2 b2 c2 t2 heq
      rw [List.cons.injEq] at heq
      exact (hne b2 c2 t2 heq.2).elim
    · rename_i c2 t2 heq
      rw [List.cons.injEq] at heq
      rw [← heq.1, ← heq.2, ih (dhTail h)]
    · rename_i heq
      exact (List.cons_ne_nil c t heq).elim
  | case4 => rw [Cleanup.sub9a.eq_def]

theorem sub9bDH (s : Str) (h : DHonly s) : Cleanup.sub9b s = s := by
  induction s using Cleanup.sub9b.induct with
  | case1 a b c d e t hcond ih =>
    obtain ⟨hb, -, -, -, -⟩ := hcond
    subst hb
    exact absurd (h 'В' (by simp)) (by decide)
  | case2 a b c d e t hcond ih =>
    rw [Cleanup.sub9b.eq_def]
    dsimp only
    rw [if_neg hcond, ih (dhTail h)]
  | case3 c t hne ih =>
    rw [Cleanup.sub9b.eq_def]
    split
    · rename_i a2 b2 c2 d2 e2 t2 heq
      rw [List.cons.injEq] at heq
      exact (hne b2 c2 d2 e2 t2 heq.2).elim
    · rename_i c2 t2 heq
      rw [List.cons.injEq] at heq
      rw [← heq.1, ← heq.2, ih (dhTail h)]
    · rename_i heq
      exact (List.cons_ne_nil c t heq).elim
  | case4 => rw [Cleanup.sub9b.eq_def]

theorem sub9cDH (s : Str) (h : DHonly s) : Cleanup.sub9c s = s := by
  induction s using Cleanup.sub9c.induct with
  | case1 a b c d t hcond ih =>
    obtain ⟨hb, -, -, -⟩ := hcond
    subst hb
    exact absurd (h 'к' (by simp)) (by decide)
  | case2 a b c d t hcond ih =>
    rw [Cleanup.sub9c.eq_def]
    dsimp only
    rw [if_neg hcond, ih (dhTail h)]
  | case3 c t hne ih =>
    rw [Cleanup.sub9c.eq_def]
    split
    · rename_i a2 b2 c2 d2 t2 heq
      rw [List.cons.injEq] at heq
      exact (hne b2 c2 d2 t2 heq.2).elim
    · rename_i c2 t2 heq
      rw [List.cons.injEq] at heq
      rw [← heq.1, ← heq.2, ih (dhTail h)]
    · rename_i heq
      exact (List.cons_ne_nil c t heq).elim
  | case4 => rw [Cleanup.sub9c.eq_def]

theorem sub10aDH (s : Str) (h : DHonly s) : Cleanup.sub10a s = s := by
  induction s using Cleanup.sub10a.induct with
  | case1 a b t hcond ih =>
    obtain ⟨hb, -⟩ := hcond
    subst hb
    exact absurd (h ' ' (by simp)) (by decide)
  | case2 a b t hcond ih =>
    rw [Cleanup.sub10a.eq_def]
    dsimp only
    rw [if_neg hcond, ih (dhTail h)]
  | case3 c t hne ih =>
    rw [Cleanup.sub10a.eq_def]
    split
    · rename_i a2 b2 t2 heq
      rw [List.cons.injEq] at heq
      exact (hne b2 t2 heq.2).elim
    · rename_i c2 t2 heq
      rw [List.cons.injEq] at heq
      rw [← heq.1, ← heq.2, ih (dhTail h)]
    · rename_i heq
      exact (List.cons_ne_nil c t heq).elim
  | case4 => rw [Cleanup.sub10a.eq_def]

theorem sub10bDH (s : Str) (h : DHonly s) : Cleanup.sub10b s = s := by
  induction s using Cleanup.sub10b.induct with
  | case1 a b t hcond ih =>
    obtain ⟨hb, -⟩ := hcond
    subst hb
    exact absurd (h ' ' (by simp)) (by decide)
  | case2 a b t hcond ih =>
    rw [Cleanup.sub10b.eq_def]
    dsimp only
    rw [if_neg hcond, ih (dhTail h)]
  | case3 c t hne ih =>
    rw [Cleanup.sub10b.eq_def]
    split
    · rename_i a2 b2 t2 heq
      rw [List.cons.injEq] at heq
      exact (hne b2 t2 heq.2).elim
    · rename_i c2 t2 heq
      rw [List.cons.injEq] at heq
      rw [← heq.1, ← heq.2, ih (dhTail h)]
    · rename_i heq
      exact (List.cons_ne_nil c t heq).elim
  | case4 => rw [Cleanup.sub10b.eq_def]

theorem sub11DH (s : Str) (h : DHonly s) : Cleanup.sub11 s = s := by
  induction s using Cleanup.sub11.induct with
  | case1 a b c d t hcond ih =>
    obtain ⟨hb, -, -, -, -, -⟩ := hcond
    subst hb
    exact absurd (h '.' (by simp)) (by decide)
  | case2 a b c d t hcond ih =>
    rw [Cleanup.sub11.eq_def]
    dsimp only
    rw [if_neg hcond, ih (dhTail h)]
  | case3 c t hne ih =>
    rw [Cleanup.sub11.eq_def]
    split
    · rename_i a2 b2 c2 d2 t2 heq
      rw [List.cons.injEq] at heq
      exact (hne b2 c2 d2 t2 heq.2).elim
    · rename_i c2 t2 heq
      rw [List.cons.injEq] at heq
      rw [← heq.1, ← heq.2, ih (dhTail h)]
    · rename_i heq
      exact (List.cons_ne_nil c t heq).elim
  | case4 => rw [Cleanup.sub11.eq_def]

theorem sub6goDH : ∀ (fuel : Nat) (s : Str), DHonly s → Cleanup.sub6go fuel s = s := by
  intro fuel
  induction fuel with
  | zero =>
    intro s _
    cases s <;> rfl
  | succ f ih =>
    intro s h
    match s with
    | [] => rfl
    | a :: b :: c :: t =>
      rw [Cleanup.sub6go]
      rw [if_neg]
      · rw [ih (b :: c :: t) (dhTail h)]
      · rintro ⟨ha, -, -⟩
        subst ha
        exact absurd (h 'С' (by simp)) (by decide)
    | [a] =>
      rw [Cleanup.sub6go]
      · rw [ih [] (fun c hc => absurd hc (by simp))]
      · intro b2 c2 t2 h2
        exact absurd h2 (by simp)
    | [a, b] =>
      rw [Cleanup.sub6go]
      · rw [ih [b] (dhTail h)]
      · intro b2 c2 t2 h2
        exact absurd h2 (by simp)

theorem sub6DH (s : Str) (h : DHonly s) : Cleanup.sub6 s = s := sub6goDH s.length s h

/-- A digit-and-hyphen string is a fixed point of the whole `clean_text`
pipeline: no punctuation rule can fire on it. -/
theorem cleanTextDH (s : Str) (h : DHonly s) : Cleanup.clean_text s = s := by
  have h0 : replaceAll ". ... ".data (". ".data ++ Cleanup.ellipsisToken ++ " ".data) s = s := by
    rw [show (". ... ".data : Str) = '.' :: " ... ".data from rfl]
    exact replaceAllId s (fun c hc => dhNe (h c hc) (by decide))
  have h1a : Cleanup.sub1a s = s := sub1aDH s h
  have hend : replaceAll Cleanup.ellipsisToken "...".data s = s := by
    rw [show (Cleanup.ellipsisToken : Str) = '<' :: "<<ELLIPSIS>>>".data from rfl]
    exact replaceAllId s (fun c hc => dhNe (h c hc) (by decide))
  unfold Cleanup.clean_text
  rw [h0, h1a, sub1bDH s h, sub2DH s h, sub3DH s h, sub4DH s h, sub5aDH s h,
    sub5bDH s h, sub5cDH s h, sub6DH s h, sub7DH s h, sub8DH s h, sub9aDH s h,
    sub9bDH s h, sub9cDH s h, sub10aDH s h, sub10bDH s h, sub11DH s h, hend]

/-- The canonical four-digit rendering of a number in 1000..9999. -/
def toDigits4 (n : Nat) : Str :=
  [Char.ofNat (48 + n / 1000 % 10), Char.ofNat (48 + n / 100 % 10),
   Char.ofNat (48 + n / 10 % 10), Char.ofNat (48 + n % 10)]

theorem toNatOfDigit (k : Nat) (hk : k < 10) : (Char.ofNat (48 + k)).toNat = 48 + k := by
  interval_cases k <;> decide

theorem digitIsDigitC (k : Nat) (hk : k < 10) : isDigitC (Char.ofNat (48 + k)) = true := by
  simp only [isDigitC, toNatOfDigit k hk]
  simp
  omega

theorem toDigits4DH (n : Nat) : DHonly (toDigits4 n) := by
  intro c hc
  simp only [toDigits4, List.mem_cons, List.not_mem_nil, or_false] at hc
  rcases hc with rfl | rfl | rfl | rfl <;>
    exact Or.inl (digitIsDigitC _ (Nat.mod_lt _ (by omega)))

theorem renderDH (y1 y2 : Nat) : DHonly (toDigits4 y1 ++ '-' :: toDigits4 y2) := by
  intro c hc
  rw [List.mem_append, List.mem_cons] at hc
  rcases hc with hc | rfl | hc
  · exact toDigits4DH y1 c hc
  · exact Or.inr rfl
  · exact toDigits4DH y2 c hc

theorem yearPairsRender (y1 y2 : Nat) (h1 : 1000 ≤ y1 ∧ y1 ≤ 9999)
    (h2 : 1000 ≤ y2 ∧ y2 ≤ 9999) :
    Validate.yearPairs (toDigits4 y1 ++ '-' :: toDigits4 y2) = [(y1, y2)] := by
  have hd : ∀ n : Nat, ∀ k ∈ [n / 1000 % 10, n / 100 % 10, n / 10 % 10, n % 10],
      isDigitC (Char.ofNat (48 + k)) = true := by
    intro n k hk
    exact digitIsDigitC _ (by
      simp only [List.mem_cons, List.not_mem_nil, or_false] at hk
      rcases hk with rfl | rfl | rfl | rfl <;> exact Nat.mod_lt _ (by omega))
  simp only [toDigits4, List.cons_append, List.nil_append]
  rw [Validate.yearPairs.eq_def]
  dsimp only
  rw [if_pos]
  · rw [show Validate.yearPairs [] = [] from by rw [Validate.yearPairs.eq_def]]
    rw [toNatOfDigit _ (Nat.mod_lt _ (by omega)), toNatOfDigit _ (Nat.mod_lt _ (by omega)),
      toNatOfDigit _ (Nat.mod_lt _ (by omega)), toNatOfDigit _ (Nat.mod_lt _ (by omega)),
      toNatOfDigit _ (Nat.mod_lt _ (by omega)), toNatOfDigit _ (Nat.mod_lt _ (by omega)),
      toNatOfDigit _ (Nat.mod_lt _ (by omega)), toNatOfDigit _ (Nat.mod_lt _ (by omega))]
    rw [List.cons.injEq, Prod.mk.injEq]
    refine ⟨⟨by omega, by omega⟩, rfl⟩
  · refine ⟨hd y1 _ (by simp), hd y1 _ (by simp), hd y1 _ (by simp), hd y1 _ (by simp),
      rfl, hd y2 _ (by simp), hd y2 _ (by simp), hd y2 _ (by simp), hd y2 _ (by simp)⟩

/-- C7: a hyphen between two 4-digit numbers is flagged as a year range
by the validator exactly when `1990 ≤ year1 < year2 ≤ 2030`, and the
normalizer leaves the text untouched in every case (no cleanup rule ever
rewrites the hyphen), so the ambiguity is only ever recorded as an
issue, never rewritten. -/
theorem C7_hyphen_year_range (y1 y2 : Nat)
    (h1 : 1000 ≤ y1 ∧ y1 ≤ 9999) (h2 : 1000 ≤ y2 ∧ y2 ≤ 9999) :
    (Validate.hyphenFlagged (toDigits4 y1 ++ '-' :: toDigits4 y2) = true ↔
      (1990 ≤ y1 ∧ y1 < y2 ∧ y2 ≤ 2030)) ∧
    Cleanup.clean_text (toDigits4 y1 ++ '-' :: toDigits4 y2) =
      toDigits4 y1 ++ '-' :: toDigits4 y2 := by
  constructor
  · unfold Validate.hyphenFlagged Validate.hyphenYearRangeHits
    rw [yearPairsRender y1 y2 h1 h2]
    by_cases hc : 1990 ≤ y1 ∧ y1 < y2 ∧ y2 ≤ 2030
    · simp [List.filter, hc]
    · simp [List.filter, hc]
  · exact cleanTextDH _ (renderDH y1 y2)

/-- Witness for C7 at the concrete year range `2015-2020`. -/
theorem C7_hyphen_year_range_witness :
    ((1000 ≤ 2015 ∧ 2015 ≤ 9999) ∧ (1000 ≤ 2020 ∧ 2020 ≤ 9999)) ∧
    ((Validate.hyphenFlagged (toDigits4 2015 ++ '-' :: toDigits4 2020) = true ↔
        (1990 ≤ 2015 ∧ 2015 < 2020 ∧ 2020 ≤ 2030)) ∧
      Cleanup.clean_text (toDigits4 2015 ++ '-' :: toDigits4 2020) =
        toDigits4 2015 ++ '-' :: toDigits4 2020) :=
  ⟨⟨⟨by decide, by decide⟩, ⟨by decide, by decide⟩⟩,
    C7_hyphen_year_range 2015 2020 ⟨by decide, by decide⟩ ⟨by decide, by decide⟩⟩

/-! The claims. -/

/-- C1: the spec requires `normalize` to be idempotent, but `clean_text`
is not: on `"а. .б"` the space-stripping rule creates a new double
period (`"а..б"`) that only a second run collapses to `"а.б"` — the
first run's output still contains the very defect rule 1 exists to fix. -/
theorem C1_normalize_not_idempotent :
    Cleanup.cleanTextS "а. .б" = "а..б" ∧
    Cleanup.cleanTextS "а..б" = "а.б" ∧
    Cleanup.cleanTextS (Cleanup.cleanTextS "а. .б") ≠ Cleanup.cleanTextS "а. .б" :=
  ⟨by decide, by decide, by decide⟩

/-- C2: on the electronic-resource scenario input the classifier returns
`electronic_resource`, the URL is extracted with the colon of `http://`
untouched by normalization — but the access date is NOT extracted,
because `parse_access_date` only accepts the prefix `дата обращения`
(shown by the fourth conjunct) and never `Дата доступа`. -/
theorem C2_scenario4_access_date_missed :
    Agent.detectS "… [Электронный ресурс]. – Режим доступа: http://www.pravo.by. – Дата доступа: 24.06.2024." = "electronic_resource" ∧
    Vak.parse_url "… [Электронный ресурс]. – Режим доступа: http://www.pravo.by. – Дата доступа: 24.06.2024.".data = some "http://www.pravo.by".data ∧
    Vak.parse_access_date "… [Электронный ресурс]. – Режим доступа: http://www.pravo.by. – Дата доступа: 24.06.2024.".data = none ∧
    Vak.parse_access_date "… (дата обращения: 24.06.2024).".data = some "24.06.2024".data ∧
    Cleanup.cleanTextS "… [Электронный ресурс]. – Режим доступа: http://www.pravo.by. – Дата доступа: 24.06.2024." = "… [Электронный ресурс]. – Режим доступа: http://www.pravo.by. – Дата доступа: 24.06.2024." :=
  ⟨by decide, by decide, by decide, by decide, by decide⟩

/-- C5 counterexample: classification is not stable under
normalization — removing the space before the comma in `"Иванов , И."`
creates a `Surname, Initial.` author match, so the tag changes from
`unknown` to `book_1_3_authors`. -/
theorem C5_counterexample :
    Agent.detectS (Cleanup.cleanTextS "Иванов , И.") = "book_1_3_authors" ∧
    Agent.detectS "Иванов , И." = "unknown" ∧
    Agent.detectS (Cleanup.cleanTextS "Иванов , И.") ≠ Agent.detectS "Иванов , И." :=
  ⟨by decide, by decide, by decide⟩

/-- C5 (amended): re-running the classifier on the normalizer's output
CAN change the assigned tag — normalization may alter
category-determining signals. -/
theorem C5_classifier_not_stable :
    ∃ x : String, Agent.detectS (Cleanup.cleanTextS x) ≠ Agent.detectS x :=
  ⟨"Иванов , И.", by decide⟩

/-- C8: the normalizer leaves `"... канд. гіст. навук"` unchanged — in
particular the literal three-dot run survives and no rule merges or
strips it. -/
theorem C8_ellipsis_preserved :
    Cleanup.cleanTextS "... канд. гіст. навук" = "... канд. гіст. навук" ∧
    containsSub "...".data (Cleanup.cleanTextS "... канд. гіст. навук").data = true :=
  ⟨by decide, by decide⟩

/-- The confidence formula in the spec's own words: an integer score,
100 minus the named penalties (−20 author, −30 title, −10 year),
floored at 30 (the floor written as an executable conditional). -/
def specConfidenceInt (noAuthor noTitle noYear : Bool) : ℤ :=
  let raw : ℤ :=
    100 - (if noAuthor then 20 else 0) - (if noTitle then 30 else 0) -
      (if noYear then 10 else 0)
  if raw ≤ 30 then 30 else raw

/-- The confidence `parse_example` actually computes, as a value of its
own: 1.0 minus the penalties 0.2/0.3/0.1, floored at 0.3 (in the exact
tenths representation used by `Vak.parse_example`). -/
def codeConfidence (text : Str) : ℚ :=
  ratMax (tenths 3)
    (tenths (10 - (if Vak.parse_authors text = [] then 2 else 0)
       - (if Vak.parse_title text = [] then 3 else 0)
       - (if Vak.parse_year text = none then 1 else 0)))

/-- A fully extractable VAK record (authors, title and year all
present), used to exhibit the confidence-scale divergence. -/
def c3text : String :=
  "Дробышевский, Н. П. Ревизия и аудит / Н. П. Дробышевский. – Минск : Амалфея, 2013. – 415 с."

/-- C3 counterexample: on a fully extractable record the spec's formula
gives the integer 100, but the parser's stored confidence is the
float 1.0 — the code works on a 0.3–1.0 float scale, not the spec's
integer 0–100 scale (and its floor is 0.3, not 30). -/
theorem C3_counterexample :
    specConfidenceInt false false false = 100 ∧
    (Vak.parse_example c3text.data "book_1_3_authors" 0).map
        Vak.DatasetRecord.parsing_confidence = some (mkRat 1 1) ∧
    mkRat 1 1 ≠ mkRat 100 1 :=
  ⟨by decide, by decide, by decide⟩

/-- C3 (amended): the parser's confidence lives on the 0–1 float scale:
for every input long enough to be parsed it equals the spec's integer
formula divided by 100, and it always lies in `[0.4, 1]`, so the 0.3
floor never binds. -/
theorem C3_confidence_amended (text : Str) (st : String) (idx : Nat)
    (h : 30 ≤ text.length) :
    (Vak.parse_example text st idx).map Vak.DatasetRecord.parsing_confidence =
      some (codeConfidence text) ∧
    codeConfidence text =
      mkRat (specConfidenceInt (decide (Vak.parse_authors text = []))
        (decide (Vak.parse_title text = []))
        (decide (Vak.parse_year text = none))) 100 ∧
    mkRat 2 5 ≤ codeConfidence text ∧ codeConfidence text ≤ mkRat 1 1 := by
  refine ⟨?_, ?_, ?_, ?_⟩
  · unfold Vak.parse_example
    rw [if_neg (by omega)]
    rfl
  all_goals
    simp only [codeConfidence, specConfidenceInt]
    by_cases ha : Vak.parse_authors text = [] <;>
      by_cases ht : Vak.parse_title text = [] <;>
        by_cases hy : Vak.parse_year text = none <;>
          simp only [ha, ht, hy] <;> decide

/-- C3 amended-theorem witness: the amended theorem instantiated at a
concrete fully extractable record. -/
theorem C3_confidence_amended_witness :
    30 ≤ c3text.data.length ∧
    ((Vak.parse_example c3text.data "book_1_3_authors" 0).map
        Vak.DatasetRecord.parsing_confidence = some (codeConfidence c3text.data) ∧
      codeConfidence c3text.data =
        mkRat (specConfidenceInt (decide (Vak.parse_authors c3text.data = []))
          (decide (Vak.parse_title c3text.data = []))
          (decide (Vak.parse_year c3text.data = none))) 100 ∧
      mkRat 2 5 ≤ codeConfidence c3text.data ∧
      codeConfidence c3text.data ≤ mkRat 1 1) :=
  ⟨by decide, C3_confidence_amended c3text.data "book_1_3_authors" 0 (by decide)⟩

/-- A 40-character input with no category markers, no authors, no
title pattern and no year. -/
def c4text : String := "zzzzzzzzzzzzzzzzzzzzzzzzzzzzzzzzzzzzzzzz"

/-- C4 counterexample: on a marker-free, author-free input the
classifier does return `"unknown"` and no parse step fails, but the
resulting confidence is 0.4, which is NOT at most the spec's threshold
(0.30 on the code's 0–1 scale). -/
theorem C4_counterexample :
    Agent.detectS c4text = "unknown" ∧
    (Vak.parse_example c4text.data "unknown" 0).map
        Vak.DatasetRecord.parsing_confidence = some (mkRat 2 5) ∧
    ¬ (mkRat 2 5 ≤ mkRat 3 10) :=
  ⟨by decide, by decide, by decide⟩

/-- C4 (amended): with no recognizable category markers and zero
detected authors the classifier returns `"unknown"` and, when the text
is long enough to be parsed, `parse_example` returns a best-effort
record rather than failing — but its confidence is strictly ABOVE the
0.30 threshold (it lies in `[0.4, 1]`), so the spec's "confidence ≤ 30"
can never hold. -/
theorem C4_unknown_fallback (text : Str) (st : String) (idx : Nat)
    (hm : Agent.noMarkers text = true)
    (hc : Agent.distinctAuthorCount text = 0)
    (hl : 30 ≤ text.length) :
    Agent.detect_document_type text = "unknown" ∧
    (Vak.parse_example text st idx).map Vak.DatasetRecord.parsing_confidence =
      some (codeConfidence text) ∧
    mkRat 3 10 < codeConfidence text ∧ codeConfidence text ≤ mkRat 1 1 := by
  simp only [Agent.noMarkers, Bool.and_eq_true, Bool.not_eq_true'] at hm
  obtain ⟨⟨⟨⟨⟨⟨⟨⟨⟨⟨⟨⟨⟨⟨⟨⟨⟨⟨⟨h1a, h1b⟩, h2a⟩, h2b⟩, h3⟩, h4⟩, h5⟩, h6⟩,
    h7⟩, h8⟩, h9⟩, h10a⟩, h10b⟩, h11⟩, h12⟩, h13⟩, h14⟩, h15a⟩, h15b⟩, h16⟩ := hm
  refine ⟨?_, ?_, ?_, ?_⟩
  · unfold Agent.detect_document_type
    simp [h1a, h1b, h2a, h2b, h3, h4, h5, h6, h7, h8, h9, h10a, h10b,
      h11, h12, h13, h14, h15a, h15b, h16, hc]
  · unfold Vak.parse_example
    rw [if_neg (by omega)]
    rfl
  all_goals
    simp only [codeConfidence]
    by_cases ha : Vak.parse_authors text = [] <;>
      by_cases ht : Vak.parse_title text = [] <;>
        by_cases hy : Vak.parse_year text = none <;>
          simp only [ha, ht, hy] <;> decide

/-- C4 amended-theorem witness: the amended theorem instantiated at the
concrete marker-free input. -/
theorem C4_unknown_fallback_witness :
    (Agent.noMarkers c4text.data = true ∧ Agent.distinctAuthorCount c4text.data = 0 ∧
      30 ≤ c4text.data.length) ∧
    (Agent.detect_document_type c4text.data = "unknown" ∧
      (Vak.parse_example c4text.data "unknown" 1).map
          Vak.DatasetRecord.parsing_confidence = some (codeConfidence c4text.data) ∧
      mkRat 3 10 < codeConfidence c4text.data ∧
      codeConfidence c4text.data ≤ mkRat 1 1) :=
  ⟨⟨by decide, by decide, by decide⟩,
    C4_unknown_fallback c4text.data "unknown" 1 (by decide) (by decide) (by decide)⟩

/-- A dissertation record that also contains `Surname, Initial.` author
matches. -/
def c6text : String :=
  "Иванов, И. И. Основы : дис. ... канд. ист. наук : 07.00.02 / И. И. Иванов. – Минск, 2013."

/-- C6: when the lowercased text matches the degree-marker regex and no
earlier check fires (bracketed-medium markers, patent), the classifier
returns `"dissertation"` — with no assumption at all on the author
matches, so the degree check takes precedence over the author-count
fallback. -/
theorem C6_degree_marker_precedence (text : Str)
    (h1a : containsSub "[звукозапись]".data (Agent.lowerStr text) = false)
    (h1b : containsSub "[видеозапись]".data (Agent.lowerStr text) = false)
    (h2a : containsSub "[изоматериал]".data (Agent.lowerStr text) = false)
    (h2b : containsSub "плакат]".data (Agent.lowerStr text) = false)
    (h3 : containsSub "[ноты]".data (Agent.lowerStr text) = false)
    (h4 : containsSub "[карт".data (Agent.lowerStr text) = false)
    (h5 : searchB Agent.patentAt text = false)
    (h6 : searchB Agent.degreeAt (Agent.lowerStr text) = true) :
    Agent.detect_document_type text = "dissertation" := by
  unfold Agent.detect_document_type
  simp [h1a, h1b, h2a, h2b, h3, h4, h5, h6]

/-- C6 witness: the precedence theorem instantiated at a dissertation
record that has at least one `Surname, Initial.` author match. -/
theorem C6_degree_marker_precedence_witness :
    1 ≤ Agent.distinctAuthorCount c6text.data ∧
    Agent.detect_document_type c6text.data = "dissertation" :=
  ⟨by decide,
    C6_degree_marker_precedence c6text.data (by decide) (by decide) (by decide)
      (by decide) (by decide) (by decide) (by decide) (by decide)⟩

/-- C9: whenever the stripped input does not match the DOI pattern and
its hyphen- and space-free form has exactly 10 characters,
`detect_identifier` labels it an ISBN — with no digit test at all, and
without ever consulting the declared `ISBN_10_PATTERN`. -/
theorem C9_isbn10_no_digit_check (text : Str)
    (hd : Metadata.doiFull (pyStrip text) = false)
    (hl : ((pyStrip text).filter (fun c => c ≠ '-' && c ≠ ' ')).length = 10) :
    Metadata.detect_identifier text =
      ("isbn", (pyStrip text).filter (fun c => c ≠ '-' && c ≠ ' ')) := by
  unfold Metadata.detect_identifier
  rw [if_neg (by simp [hd]), if_neg (by rintro ⟨h13, -⟩; omega), if_pos hl]

/-- C9 witness: a 10-letter input with no digit at all — rejected by
the declared `ISBN_10_PATTERN` — is still labelled an ISBN. -/
theorem C9_isbn10_no_digit_check_witness :
    Metadata.isbn10Match "abcdefghij".data = false ∧
    Metadata.detect_identifier "abcdefghij".data =
      ("isbn", (pyStrip "abcdefghij".data).filter (fun c => c ≠ '-' && c ≠ ' ')) :=
  ⟨by decide, C9_isbn10_no_digit_check "abcdefghij".data (by decide) (by decide)⟩

/-- One inner pass only ever appends to `expanded`. -/
theorem passOnce_app (vary : String → Nat → String) (tc vpr : Nat)
    (rs : List Expander.ExpRecord) (st : Expander.ExpState) :
    ∃ t, (Expander.passOnce vary tc vpr rs st).expanded = st.expanded ++ t := by
  induction rs generalizing st with
  | nil => exact ⟨[], by simp [Expander.passOnce]⟩
  | cons r rest ih =>
    rw [Expander.passOnce]
    split
    · exact ⟨[], by simp⟩
    split
    · exact ih st
    obtain ⟨t, ht⟩ := ih
      { expanded := st.expanded ++
          [Expander.create_variation vary st.idx r (Expander.countsGet st.counts r.id)]
        idx := st.idx + 1
        counts := Expander.countsSet st.counts r.id (Expander.countsGet st.counts r.id + 1) }
    refine ⟨Expander.create_variation vary st.idx r (Expander.countsGet st.counts r.id) :: t, ?_⟩
    rw [ht]
    simp

/-- One inner pass never takes `expanded` past the target count. -/
theorem passOnce_len_le (vary : String → Nat → String) (tc vpr : Nat)
    (rs : List Expander.ExpRecord) (st : Expander.ExpState)
    (h : st.expanded.length ≤ tc) :
    (Expander.passOnce vary tc vpr rs st).expanded.length ≤ tc := by
  induction rs generalizing st with
  | nil => simpa [Expander.passOnce] using h
  | cons r rest ih =>
    rw [Expander.passOnce]
    split
    · exact h
    split
    · exact ih st h
    rename_i hlt _
    refine ih _ ?_
    simp only [List.length_append, List.length_cons, List.length_nil]
    omega

/-- One inner pass either leaves the state untouched or strictly grows
`expanded`. -/
theorem passOnce_eq_or_grow (vary : String → Nat → String) (tc vpr : Nat)
    (rs : List Expander.ExpRecord) (st : Expander.ExpState) :
    Expander.passOnce vary tc vpr rs st = st ∨
    st.expanded.length < (Expander.passOnce vary tc vpr rs st).expanded.length := by
  induction rs generalizing st with
  | nil => left; simp [Expander.passOnce]
  | cons r rest ih =>
    rw [Expander.passOnce]
    split
    · left; rfl
    split
    · exact ih st
    right
    obtain ⟨t, ht⟩ := passOnce_app vary tc vpr rest _
    rw [ht]
    simp only [List.length_append, List.length_cons, List.length_nil]
    omega

/-- If a pass changes nothing although the target is not reached, every
record of the pass was skipped because its counter is at the limit. -/
theorem passOnce_stuck (vary : String → Nat → String) (tc vpr : Nat)
    (rs : List Expander.ExpRecord) (st : Expander.ExpState)
    (hlen : st.expanded.length < tc)
    (heq : Expander.passOnce vary tc vpr rs st = st) :
    ∀ r ∈ rs, vpr ≤ Expander.countsGet st.counts r.id := by
  induction rs generalizing st with
  | nil => intro r hr; cases hr
  | cons a rest ih =>
    intro r hr
    rw [Expander.passOnce] at heq
    split at heq
    · omega
    split at heq
    · rcases List.mem_cons.mp hr with rfl | hr2
      · rename_i hskip
        exact hskip
      · exact ih st hlen heq r hr2
    · exfalso
      obtain ⟨t, ht⟩ := passOnce_app vary tc vpr rest _
      rw [heq] at ht
      have hlen2 := congrArg List.length ht
      simp only [List.length_append, List.length_cons, List.length_nil] at hlen2
      omega

/-- After a counter reset every lookup yields 0. -/
theorem countsGet_countsReset (m : List (String × Nat)) (k : String) :
    Expander.countsGet (Expander.countsReset m) k = 0 := by
  induction m with
  | nil => rfl
  | cons p rest ih =>
    by_cases h : p.1 == k
    · simp [Expander.countsReset, Expander.countsGet, List.find?, h]
    · have hb : (p.1 == k) = false := by simpa using h
      simp only [Expander.countsReset, Expander.countsGet, List.map_cons, List.find?, hb] at *
      exact ih

/-- A reset does not change the key list. -/
theorem countsReset_keys (m : List (String × Nat)) :
    (Expander.countsReset m).map Prod.fst = m.map Prod.fst := by
  induction m with
  | nil => rfl
  | cons p rest ih => simp [Expander.countsReset] at *

/-- With duplicate-free keys, `find?` on an entry's key returns that
entry. -/
theorem find_mem_nodup (m : List (String × Nat))
    (hnd : (m.map Prod.fst).Nodup) (p : String × Nat) (hp : p ∈ m) :
    m.find? (fun q => q.1 == p.1) = some p := by
  induction m with
  | nil => cases hp
  | cons a rest ih =>
    rcases List.mem_cons.mp hp with rfl | hp2
    · simp [List.find?]
    · have h1 : p.1 ∈ rest.map Prod.fst := List.mem_map_of_mem Prod.fst hp2
      have h2 : a.1 ∉ rest.map Prod.fst := (List.nodup_cons.mp hnd).1
      have ha : (a.1 == p.1) = false := by
        refine beq_eq_false_iff_ne.mpr fun hEq => h2 ?_
        rw [hEq]
        exact h1
      rw [List.find?]
      rw [ha]
      exact ih (List.nodup_cons.mp hnd).2 hp2

/-- If every record of `rtv` has reached the limit and the counter keys
all come from `rtv` without duplicates, the dictionary-wide
all-at-limit test of the while loop succeeds. -/
theorem allLimit_of (vpr : Nat) (rtv : List Expander.ExpRecord)
    (m : List (String × Nat))
    (hk : ∀ p ∈ m, ∃ r ∈ rtv, p.1 = r.id)
    (hnd : (m.map Prod.fst).Nodup)
    (hall : ∀ r ∈ rtv, vpr ≤ Expander.countsGet m r.id) :
    (m.map (·.2)).all (fun c => vpr ≤ c) = true := by
  rw [List.all_eq_true]
  intro c hc
  obtain ⟨p, hp, rfl⟩ := List.mem_map.mp hc
  obtain ⟨r, hr, hid⟩ := hk p hp
  have hle := hall r hr
  have hfind : m.find? (fun q => q.1 == r.id) = some p := by
    rw [← hid]
    exact find_mem_nodup m hnd p hp
  simp only [Expander.countsGet, hfind] at hle
  exact decide_eq_true hle

/-- A key that the `any` test rejects is not among the keys. -/
theorem key_not_mem_of_any_false (m : List (String × Nat)) (k : String)
    (h : m.any (fun q => q.1 == k) = false) : k ∉ m.map Prod.fst := by
  intro hmem
  obtain ⟨p, hp, he⟩ := List.mem_map.mp hmem
  rw [List.any_eq_false] at h
  exact h p hp (by simp [he])

/-- Every entry of `dict[key] = v` either carries that key or was
already present. -/
theorem countsSet_keys (m : List (String × Nat)) (k : String) (v : Nat) :
    ∀ p ∈ Expander.countsSet m k v, p.1 = k ∨ p ∈ m := by
  intro p hp
  unfold Expander.countsSet at hp
  split at hp
  · obtain ⟨q, hq, he⟩ := List.mem_map.mp hp
    by_cases hqk : q.1 == k
    · left
      rw [← he]
      simp [hqk]
    · right
      have hb : (q.1 == k) = false := by simpa using hqk
      rw [← he]
      simp [hb]
      exact hq
  · rcases List.mem_append.mp hp with h2 | h2
    · exact Or.inr h2
    · left
      simp at h2
      simp [h2]

/-- `dict[key] = v` keeps the keys duplicate-free. -/
theorem countsSet_keysNodup (m : List (String × Nat)) (k : String) (v : Nat)
    (h : (m.map Prod.fst).Nodup) :
    ((Expander.countsSet m k v).map Prod.fst).Nodup := by
  unfold Expander.countsSet
  split
  · have heq : (m.map (fun p => if p.1 == k then (k, v) else p)).map Prod.fst =
        m.map Prod.fst := by
      rw [List.map_map]
      apply List.map_congr_left
      intro p hp
      by_cases hpk : p.1 == k
      · simp only [Function.comp, hpk, if_true]
        exact (beq_iff_eq.mp hpk).symm
      · have hb : (p.1 == k) = false := by simpa using hpk
        simp [Function.comp, hb]
    rw [heq]
    exact h
  · rename_i hany
    rw [List.map_append]
    rw [List.nodup_append]
    refine ⟨h, by simp, ?_⟩
    intro a ha hb
    simp at hb
    rw [hb] at ha
    exact key_not_mem_of_any_false m k (eq_false_of_ne_true hany) ha

/-- Generalized fold invariant for `countsInit`: every produced entry
comes from the accumulator or from a record of the list. -/
theorem countsInit_keys_aux (rs : List Expander.ExpRecord)
    (acc : List (String × Nat)) :
    ∀ p ∈ rs.foldl
        (fun m r => if m.any (fun q => q.1 == r.id) then m else m ++ [(r.id, 0)]) acc,
      p ∈ acc ∨ ∃ r ∈ rs, p.1 = r.id := by
  induction rs generalizing acc with
  | nil => intro p hp; exact Or.inl hp
  | cons a rest ih =>
    intro p hp
    rw [List.foldl_cons] at hp
    rcases ih _ p hp with h | h
    · split at h
      · exact Or.inl h
      · rcases List.mem_append.mp h with h2 | h2
        · exact Or.inl h2
        · simp at h2
          exact Or.inr ⟨a, List.mem_cons_self a rest, by simp [h2]⟩
    · obtain ⟨r, hr, h3⟩ := h
      exact Or.inr ⟨r, List.mem_cons_of_mem a hr, h3⟩

/-- Every key of the initial counter dictionary is the id of a record
to vary. -/
theorem countsInit_keys (rs : List Expander.ExpRecord) :
    ∀ p ∈ Expander.countsInit rs, ∃ r ∈ rs, p.1 = r.id := by
  intro p hp
  rcases countsInit_keys_aux rs [] p hp with h | h
  · cases h
  · exact h

/-- Generalized fold invariant: `countsInit` keeps keys
duplicate-free. -/
theorem countsInit_nodup_aux (rs : List Expander.ExpRecord)
    (acc : List (String × Nat)) (h : (acc.map Prod.fst).Nodup) :
    ((rs.foldl
        (fun m r => if m.any (fun q => q.1 == r.id) then m else m ++ [(r.id, 0)])
        acc).map Prod.fst).Nodup := by
  induction rs generalizing acc with
  | nil => exact h
  | cons a rest ih =>
    rw [List.foldl_cons]
    split
    · exact ih acc h
    · rename_i hany
      refine ih _ ?_
      rw [List.map_append, List.nodup_append]
      refine ⟨h, by simp, ?_⟩
      intro x hx hb
      simp at hb
      rw [hb] at hx
      exact key_not_mem_of_any_false acc a.id (eq_false_of_ne_true hany) hx

/-- The initial counter dictionary has duplicate-free keys. -/
theorem countsInit_nodup (rs : List Expander.ExpRecord) :
    ((Expander.countsInit rs).map Prod.fst).Nodup :=
  countsInit_nodup_aux rs [] (by simp)

/-- An inner pass only introduces counter keys that are ids of the
records it visits. -/
theorem passOnce_keys (vary : String → Nat → String) (tc vpr : Nat)
    (rtv : List Expander.ExpRecord) (rs : List Expander.ExpRecord)
    (st : Expander.ExpState) (hsub : ∀ r ∈ rs, r ∈ rtv)
    (hk : ∀ p ∈ st.counts, ∃ r ∈ rtv, p.1 = r.id) :
    ∀ p ∈ (Expander.passOnce vary tc vpr rs st).counts, ∃ r ∈ rtv, p.1 = r.id := by
  induction rs generalizing st with
  | nil => simpa [Expander.passOnce] using hk
  | cons a rest ih =>
    rw [Expander.passOnce]
    split
    · exact hk
    split
    · exact ih st (fun r hr => hsub r (List.mem_cons_of_mem a hr)) hk
    · refine ih _ (fun r hr => hsub r (List.mem_cons_of_mem a hr)) ?_
      intro p hp
      rcases countsSet_keys st.counts a.id _ p hp with h | h
      · exact ⟨a, hsub a (List.mem_cons_self a rest), h⟩
      · exact hk p h

/-- An inner pass keeps the counter keys duplicate-free. -/
theorem passOnce_nodup (vary : String → Nat → String) (tc vpr : Nat)
    (rs : List Expander.ExpRecord) (st : Expander.ExpState)
    (hnd : (st.counts.map Prod.fst).Nodup) :
    (((Expander.passOnce vary tc vpr rs st).counts).map Prod.fst).Nodup := by
  induction rs generalizing st with
  | nil => simpa [Expander.passOnce] using hnd
  | cons a rest ih =>
    rw [Expander.passOnce]
    split
    · exact hnd
    split
    · exact ih st hnd
    · exact ih _ (countsSet_keysNodup st.counts a.id _ hnd)

/-- With a positive limit and an all-zero counter dictionary, a pass
over a non-empty record list strictly grows `expanded` as long as the
target is not reached. -/
theorem passOnce_grow_zero (vary : String → Nat → String) (tc vpr : Nat)
    (r : Expander.ExpRecord) (rest : List Expander.ExpRecord)
    (st : Expander.ExpState) (hlen : st.expanded.length < tc) (hv : 1 ≤ vpr)
    (hz : Expander.countsGet st.counts r.id = 0) :
    st.expanded.length < (Expander.passOnce vary tc vpr (r :: rest) st).expanded.length := by
  rw [Expander.passOnce]
  rw [if_neg (by omega)]
  rw [hz]
  rw [if_neg (by omega)]
  obtain ⟨t, ht⟩ := passOnce_app vary tc vpr rest _
  rw [ht]
  simp only [List.length_append, List.length_cons, List.length_nil]
  omega

/-- The previous lemma packaged for a list that is merely known to be
non-empty. -/
theorem passOnce_grow_zero_ne (vary : String → Nat → String) (tc vpr : Nat)
    (rtv : List Expander.ExpRecord) (st : Expander.ExpState)
    (hne : rtv ≠ []) (hlen : st.expanded.length < tc) (hv : 1 ≤ vpr)
    (hz : ∀ r ∈ rtv, Expander.countsGet st.counts r.id = 0) :
    st.expanded.length < (Expander.passOnce vary tc vpr rtv st).expanded.length := by
  rcases rtv with _ | ⟨r0, rest0⟩
  · exact absurd rfl hne
  · exact passOnce_grow_zero vary tc vpr r0 rest0 st hlen hv
      (hz r0 (List.mem_cons_self r0 rest0))

/-- Main loop lemma: with a positive per-record limit and a non-empty
list of records to vary, fuel linear in the remaining distance drives
the while loop to completion; the loop only appends, and stops with
exactly the target length. -/
theorem loopFuel_done (vary : String → Nat → String) (tc vpr : Nat)
    (rtv : List Expander.ExpRecord) (hv : 1 ≤ vpr) (hne : rtv ≠ []) :
    ∀ (k : Nat) (st : Expander.ExpState),
      (∀ p ∈ st.counts, ∃ r ∈ rtv, p.1 = r.id) →
      (st.counts.map Prod.fst).Nodup →
      st.expanded.length ≤ tc →
      2 * (tc - st.expanded.length) + 1 ≤ k →
      ∃ st2 t, Expander.loopFuel vary tc vpr rtv k st = some st2 ∧
        st2.expanded = st.expanded ++ t ∧ st2.expanded.length = tc := by
  intro k
  induction k using Nat.strong_induction_on with
  | _ k ih =>
    intro st hkeys hnd hle hfuel
    obtain ⟨k1, rfl⟩ : ∃ k1, k = k1 + 1 := ⟨k - 1, by omega⟩
    rw [Expander.loopFuel]
    by_cases hdone : tc ≤ st.expanded.length
    · rw [if_pos hdone]
      exact ⟨st, [], rfl, by simp, by omega⟩
    rw [if_neg hdone]
    dsimp only
    rcases passOnce_eq_or_grow vary tc vpr rtv st with heq | hgrow
    · -- the pass was a no-op: every record is at the limit, so the
      -- counters are reset, and the next pass makes progress
      have hstuck := passOnce_stuck vary tc vpr rtv st (by omega) heq
      rw [heq]
      have hall : ((st.counts.map (·.2)).all (fun c => vpr ≤ c)) = true :=
        allLimit_of vpr rtv st.counts hkeys hnd hstuck
      rw [hall, if_pos rfl]
      obtain ⟨k2, rfl⟩ : ∃ k2, k1 = k2 + 1 := ⟨k1 - 1, by omega⟩
      rw [Expander.loopFuel]
      dsimp only
      rw [if_neg hdone]
      have hkeysR : ∀ p ∈ Expander.countsReset st.counts, ∃ r ∈ rtv, p.1 = r.id := by
        intro p hp
        obtain ⟨q, hq, he⟩ := List.mem_map.mp hp
        obtain ⟨r, hr, hid⟩ := hkeys q hq
        exact ⟨r, hr, by rw [← he, hid]⟩
      have hndR : ((Expander.countsReset st.counts).map Prod.fst).Nodup := by
        rw [countsReset_keys]
        exact hnd
      set stR : Expander.ExpState := ⟨st.expanded, st.idx, Expander.countsReset st.counts⟩
        with hstR
      have hstRlen : stR.expanded.length = st.expanded.length := rfl
      have hgrow2 : stR.expanded.length <
          (Expander.passOnce vary tc vpr rtv stR).expanded.length :=
        passOnce_grow_zero_ne vary tc vpr rtv stR hne (by omega) hv
          (fun r _ => countsGet_countsReset st.counts r.id)
      set stP := Expander.passOnce vary tc vpr rtv stR with hstP
      have hPle : stP.expanded.length ≤ tc :=
        passOnce_len_le vary tc vpr rtv stR (by omega)
      have hPkeys : ∀ p ∈ stP.counts, ∃ r ∈ rtv, p.1 = r.id := by
        rw [hstP]
        exact passOnce_keys vary tc vpr rtv rtv stR (fun r hr => hr) hkeysR
      have hPnd : (stP.counts.map Prod.fst).Nodup := by
        rw [hstP]
        exact passOnce_nodup vary tc vpr rtv stR hndR
      obtain ⟨t1, ht1⟩ : ∃ t1, stP.expanded = st.expanded ++ t1 :=
        passOnce_app vary tc vpr rtv stR
      by_cases hA : ((stP.counts.map (·.2)).all (fun c => vpr ≤ c)) = true
      · rw [hA, if_pos rfl]
        obtain ⟨st2, t2, hloop, happ2, hlen2⟩ :=
          ih k2 (by omega) ⟨stP.expanded, stP.idx, Expander.countsReset stP.counts⟩
            (by
              intro p hp
              obtain ⟨q, hq, he⟩ := List.mem_map.mp hp
              obtain ⟨r, hr, hid⟩ := hPkeys q hq
              exact ⟨r, hr, by rw [← he, hid]⟩)
            (by rw [countsReset_keys]; exact hPnd)
            hPle
            (by dsimp only; omega)
        exact ⟨st2, t1 ++ t2, hloop, by rw [happ2]; dsimp only; rw [ht1, List.append_assoc],
          hlen2⟩
      · rw [if_neg hA]
        obtain ⟨st2, t2, hloop, happ2, hlen2⟩ :=
          ih k2 (by omega) stP hPkeys hPnd hPle (by omega)
        exact ⟨st2, t1 ++ t2, hloop, by rw [happ2, ht1, List.append_assoc], hlen2⟩
    · -- the pass appended at least one record: the distance shrank
      set stP := Expander.passOnce vary tc vpr rtv st with hstP
      have hPle : stP.expanded.length ≤ tc := passOnce_len_le vary tc vpr rtv st hle
      have hPkeys : ∀ p ∈ stP.counts, ∃ r ∈ rtv, p.1 = r.id := by
        rw [hstP]
        exact passOnce_keys vary tc vpr rtv rtv st (fun r hr => hr) hkeys
      have hPnd : (stP.counts.map Prod.fst).Nodup := by
        rw [hstP]
        exact passOnce_nodup vary tc vpr rtv st hnd
      obtain ⟨t1, ht1⟩ : ∃ t1, stP.expanded = st.expanded ++ t1 :=
        passOnce_app vary tc vpr rtv st
      by_cases hA : ((stP.counts.map (·.2)).all (fun c => vpr ≤ c)) = true
      · rw [hA, if_pos rfl]
        obtain ⟨st2, t2, hloop, happ2, hlen2⟩ :=
          ih k1 (by omega) ⟨stP.expanded, stP.idx, Expander.countsReset stP.counts⟩
            (by
              intro p hp
              obtain ⟨q, hq, he⟩ := List.mem_map.mp hp
              obtain ⟨r, hr, hid⟩ := hPkeys q hq
              exact ⟨r, hr, by rw [← he, hid]⟩)
            (by rw [countsReset_keys]; exact hPnd)
            hPle
            (by dsimp only; omega)
        exact ⟨st2, t1 ++ t2, hloop, by rw [happ2]; dsimp only; rw [ht1, List.append_assoc],
          hlen2⟩
      · rw [if_neg hA]
        obtain ⟨st2, t2, hloop, happ2, hlen2⟩ :=
          ih k1 (by omega) stP hPkeys hPnd hPle (by omega)
        exact ⟨st2, t1 ++ t2, hloop, by rw [happ2, ht1, List.append_assoc], hlen2⟩

/-- With `variations_per_record = 0` a pass skips every record and
changes nothing. -/
theorem passOnce_vpr0 (vary : String → Nat → String) (tc : Nat)
    (rs : List Expander.ExpRecord) (st : Expander.ExpState) :
    Expander.passOnce vary tc 0 rs st = st := by
  induction rs generalizing st with
  | nil => rfl
  | cons a rest ih =>
    rw [Expander.passOnce]
    split
    · rfl
    · rw [if_pos (Nat.zero_le _)]
      exact ih st

/-- With `variations_per_record = 0` the while loop never adds a record
and never reaches the target, whatever the fuel. -/
theorem loopFuel_vpr0 (vary : String → Nat → String) (tc : Nat)
    (rtv : List Expander.ExpRecord) (fuel : Nat) :
    ∀ st : Expander.ExpState, st.expanded.length < tc →
      Expander.loopFuel vary tc 0 rtv fuel st = none := by
  induction fuel with
  | zero => intro st _; rfl
  | succ n ih =>
    intro st hlt
    rw [Expander.loopFuel, if_neg (by omega)]
    dsimp only
    rw [passOnce_vpr0]
    split
    · exact ih _ hlt
    · exact ih st hlt

/-- A record whose type is known, so that the expansion loop has
something to vary. -/
def c10rec : Expander.ExpRecord :=
  { id := "r1"
    source_type := "book_1_3_authors"
    country_standard := "BY"
    formatted_output := "Иванов, И. И. Основы / И. И. Иванов. – Минск : Наука, 2013. – 215 с."
    is_variation := false
    original_id := ""
    variation_number := 0 }

/-- C10 counterexample: with `variations_per_record = 0` (and a record
to vary present), `expand` never terminates — every pass skips every
record, the all-at-limit test trivially succeeds, the counters are
reset, and the while loop spins forever without growing `expanded`. -/
theorem C10_counterexample :
    ¬ Expander.expandTerminates (fun s _ => s) [c10rec] 2 0 := by
  rintro ⟨fuel, result, h⟩
  rw [Expander.expandFuel, if_neg (by decide)] at h
  rw [loopFuel_vpr0 (fun s _ => s) 2
    ([c10rec].filter (fun r => r.source_type != "unknown")) fuel
    ⟨[c10rec].map (fun r => { r with is_variation := false }), [c10rec].length,
      Expander.countsInit ([c10rec].filter (fun r => r.source_type != "unknown"))⟩
    (by decide)] at h
  exact Option.noConfusion h

/-- C10 (amended): when `variations_per_record` is positive and some
record has a known source type, `expand` terminates with exactly
`max target_count records.length` records whose first block is the
originals, in order, copied with `is_variation = False`. -/
theorem C10_expand_returns (vary : String → Nat → String)
    (records : List Expander.ExpRecord) (tc vpr : Nat) (hv : 1 ≤ vpr)
    (hne : records.filter (fun r => r.source_type != "unknown") ≠ []) :
    ∃ fuel result, Expander.expandFuel vary records tc vpr fuel = some result ∧
      result.length = max tc records.length ∧
      result.take records.length =
        records.map (fun r => { r with is_variation := false }) := by
  have hie : (records.filter (fun r => r.source_type != "unknown")).isEmpty = false := by
    rcases hfe : records.filter (fun r => r.source_type != "unknown") with _ | ⟨a, l⟩
    · exact absurd hfe hne
    · rw [hfe]; rfl
  have horiglen : (records.map (fun r => { r with is_variation := false :
      Expander.ExpRecord })).length = records.length := List.length_map records _
  by_cases hcase : tc ≤ records.length
  · refine ⟨1, records.map (fun r => { r with is_variation := false }), ?_, ?_, ?_⟩
    · rw [Expander.expandFuel, if_neg (by simp [hie])]
      rw [Expander.loopFuel]
      rw [if_pos (by dsimp only; omega)]
      rfl
    · rw [horiglen]
      omega
    · rw [← horiglen, List.take_length]
  · obtain ⟨st2, t, hloop, happ, hlen2⟩ :=
      loopFuel_done vary tc vpr (records.filter (fun r => r.source_type != "unknown"))
        hv hne (2 * (tc - records.length) + 1)
        ⟨records.map (fun r => { r with is_variation := false }), records.length,
          Expander.countsInit (records.filter (fun r => r.source_type != "unknown"))⟩
        (fun p hp => countsInit_keys _ p hp)
        (countsInit_nodup _)
        (by dsimp only; omega)
        (by dsimp only; omega)
    refine ⟨2 * (tc - records.length) + 1, st2.expanded, ?_, ?_, ?_⟩
    · rw [Expander.expandFuel, if_neg (by simp [hie])]
      rw [hloop]
      rfl
    · omega
    · rw [happ]
      dsimp only
      rw [← horiglen, List.take_left]

/-- C10 amended-theorem witness: the amended theorem instantiated with
one varyable record, a target of three and a limit of one variation per
record. -/
theorem C10_expand_returns_witness :
    (1 ≤ 1 ∧ [c10rec].filter (fun r => r.source_type != "unknown") ≠ []) ∧
    (∃ fuel result, Expander.expandFuel (fun s _ => s) [c10rec] 3 1 fuel = some result ∧
      result.length = max 3 [c10rec].length ∧
      result.take [c10rec].length =
        [c10rec].map (fun r => { r with is_variation := false })) :=
  ⟨⟨by decide, by decide⟩,
    C10_expand_returns (fun s _ => s) [c10rec] 3 1 (by decide) (by decide)⟩
